import Mathlib

/-!
Verification of the section-aware chunking and exact-match engine of the
manufacturing-SOP standardization system.

The definitions below are a shallow embedding of
`src/projects/manufacturing-sop-standardization/backend/section_chunker.py`
(`SectionChunker`) and `src/backend/exact_match_service.py`
(`ExactMatchService`).  Python strings are modelled as Lean `String`s
(operating on their `List Char` data); Python `dict`s are modelled as
insertion-ordered association lists; Python `set`s as duplicate-free lists
with ordered insertion; the regular expressions of the source are translated
pattern by pattern into equivalent recognizers (the ASCII fragment of
Python's `\d`, `\s`, `\w` classes, which is the fragment the SOP corpus and
all the claims exercise).  SHA-256 is implemented in full over `Nat`
arithmetic (words reduced mod 2^32), following FIPS 180-4, exactly as
`hashlib.sha256(...).hexdigest()` computes it.
-/

set_option autoImplicit false

namespace SOPCore

/-! ## Python string primitives -/

/-- Python `str.strip()` whitespace class (ASCII fragment):
space, tab, newline, carriage return, vertical tab, form feed
(code points 32, 9, 10, 13, 11, 12). -/
def isPyWs (c : Char) : Bool :=
  c.toNat = 32 || c.toNat = 9 || c.toNat = 10 || c.toNat = 13 ||
    c.toNat = 11 || c.toNat = 12

/-- Python `str.lower()` on one character (ASCII fragment). -/
def pyLowerChar (c : Char) : Char :=
  if h : 65 ≤ c.toNat ∧ c.toNat ≤ 90 then
    Char.ofNatAux (c.toNat + 32) (Or.inl (by omega))
  else c

/-- Python `str.strip()`: drop whitespace from both ends. -/
def pyStrip (l : List Char) : List Char :=
  ((l.dropWhile isPyWs).reverse.dropWhile isPyWs).reverse

/-- Kernel of `re.sub(r'\s+', ' ', s)`: the flag records whether the
previous character was part of a whitespace run already replaced. -/
def collapseWsGo : Bool → List Char → List Char
  | _, [] => []
  | inWs, c :: r =>
    if isPyWs c then
      if inWs then collapseWsGo true r else ' ' :: collapseWsGo true r
    else c :: collapseWsGo false r

/-- Python `re.sub(r'\s+', ' ', s)`: replace every maximal whitespace run
by a single space. -/
def collapseWs (l : List Char) : List Char := collapseWsGo false l

/-- Python `s.split(sep)` for a one-character separator (keeps empty pieces). -/
def splitChar (sep : Char) : List Char → List (List Char)
  | [] => [[]]
  | c :: r =>
    if c = sep then [] :: splitChar sep r
    else
      match splitChar sep r with
      | [] => [[c]]
      | p :: ps => (c :: p) :: ps

/-- Python `s.split('\n\n')` (two-character separator, leftmost
non-overlapping occurrences, keeps empty pieces). -/
def splitNN : List Char → List (List Char)
  | [] => [[]]
  | [c] => [[c]]
  | c :: d :: r =>
    if c = '\n' ∧ d = '\n' then [] :: splitNN r
    else
      match splitNN (d :: r) with
      | [] => [[c]]
      | p :: ps => (c :: p) :: ps

/-- Sentence-terminal punctuation class `[.!?]` of the source regexes. -/
def isSentPunct (c : Char) : Bool := c = '.' || c = '!' || c = '?'

/-- Python `re.split(r'[.!?]+', s)`: the Bool flag is true while inside a
punctuation run that has already emitted its split point. -/
def splitPunctGo : Bool → List Char → List (List Char)
  | _, [] => [[]]
  | inP, c :: r =>
    if isSentPunct c then
      if inP then splitPunctGo true r else [] :: splitPunctGo true r
    else
      match splitPunctGo false r with
      | [] => [[c]]
      | p :: ps => (c :: p) :: ps

def splitPunct (l : List Char) : List (List Char) := splitPunctGo false l

theorem length_dropWhile_le (p : Char → Bool) (l : List Char) :
    (l.dropWhile p).length ≤ l.length := by
  induction l with
  | nil => simp [List.dropWhile]
  | cons c r ih =>
    simp only [List.dropWhile]
    cases p c <;> simp <;> omega

/-- One attempt of the separator regex `[.!?]+\s+` at the current position:
a maximal (greedy) punctuation run followed by at least one whitespace
character; on success returns the input with the whole match consumed. -/
def matchSentBoundary (l : List Char) : Option (List Char) :=
  let ps := l.takeWhile isSentPunct
  if ps.isEmpty then none
  else
    let rest := l.dropWhile isSentPunct
    match rest with
    | [] => none
    | c :: _ => if isPyWs c then some (rest.dropWhile isPyWs) else none

theorem matchSentBoundary_shrinks (c : Char) (r rest : List Char)
    (h : matchSentBoundary (c :: r) = some rest) : rest.length ≤ r.length := by
  unfold matchSentBoundary at h
  simp only [] at h
  by_cases hc : isSentPunct c
  · simp [List.takeWhile, hc, List.dropWhile] at h
    rcases hr : r.dropWhile isSentPunct with _ | ⟨d, rest'⟩
    · rw [hr] at h; exact absurd h (by simp)
    · rw [hr] at h
      by_cases hd : isPyWs d
      · simp [hd] at h
        subst h
        have h1 : (rest'.dropWhile isPyWs).length ≤ rest'.length :=
          length_dropWhile_le _ _
        have h2 : (d :: rest').length ≤ r.length := by
          rw [← hr]; exact length_dropWhile_le _ _
        simp at h2; omega
      · simp [hd] at h
  · simp [List.takeWhile, hc] at h

/-- Python `re.split(r'[.!?]+\s+', s)`: scan left to right, splitting at
every leftmost match of the separator.  The `Nat` argument is structural
fuel; by `matchSentBoundary_shrinks` every step consumes at least one
character, so fuel equal to the input length always suffices. -/
def splitSentSepGo : Nat → List Char → List (List Char)
  | _, [] => [[]]
  | 0, l => [l]
  | fuel + 1, c :: r =>
    match matchSentBoundary (c :: r) with
    | some rest =>
      [] :: splitSentSepGo fuel rest
    | none =>
      match splitSentSepGo fuel r with
      | [] => [[c]]
      | p :: ps => (c :: p) :: ps

def splitSentSep (l : List Char) : List (List Char) := splitSentSepGo l.length l

/-- Python `str.split()` with no argument: whitespace-separated words,
empty pieces discarded.  The flag is true while consuming a word. -/
def pyWordsGo : List Char → List (List Char)
  | [] => []
  | c :: r =>
    if isPyWs c then pyWordsGo r
    else
      match pyWordsGo r with
      | [] => [[c]]
      | p :: ps =>
        match r with
        | [] => [[c]]
        | d :: _ => if isPyWs d then [c] :: p :: ps else (c :: p) :: ps

/-- Number of words of Python `len(s.split())`. -/
def pyWordCount (l : List Char) : Nat := (pyWordsGo l).length

/-- Python `'\n'.join(pieces)`. -/
def joinNL : List (List Char) → List Char
  | [] => []
  | [p] => p
  | p :: q :: r => p ++ '\n' :: joinNL (q :: r)

/-! ## SHA-256 (FIPS 180-4) over `Nat`, words mod 2^32 -/

/-- The 32-bit modulus. -/
def M32 : Nat := 4294967296

/-- UTF-8 encoding of one code point (`str.encode('utf-8')`). -/
def utf8Char (n : Nat) : List Nat :=
  if n < 128 then [n]
  else if n < 2048 then [192 + n / 64, 128 + n % 64]
  else if n < 65536 then [224 + n / 4096, 128 + n / 64 % 64, 128 + n % 64]
  else [240 + n / 262144, 128 + n / 4096 % 64, 128 + n / 64 % 64, 128 + n % 64]

/-- UTF-8 bytes of a string. -/
def utf8Bytes (l : List Char) : List Nat := l.flatMap (fun c => utf8Char c.toNat)

/-- Big-endian bytes of the 64-bit message length field. -/
def lenBytes64 (bits : Nat) : List Nat :=
  [bits / 72057594037927936 % 256, bits / 281474976710656 % 256,
   bits / 1099511627776 % 256, bits / 4294967296 % 256,
   bits / 16777216 % 256, bits / 65536 % 256, bits / 256 % 256, bits % 256]

/-- SHA-256 padding: append `0x80`, zero bytes to 56 mod 64, then the
bit length as 8 big-endian bytes. -/
def sha256pad (msg : List Nat) : List Nat :=
  msg ++ 128 :: List.replicate ((120 - (msg.length + 1) % 64) % 64) 0
      ++ lenBytes64 (8 * msg.length)

/-- Four big-endian bytes to one 32-bit word. -/
def word32 (b0 b1 b2 b3 : Nat) : Nat := b0 * 16777216 + b1 * 65536 + b2 * 256 + b3

/-- Group a byte list into 16 big-endian 32-bit words per 512-bit block. -/
def toWords : List Nat → List Nat
  | b0 :: b1 :: b2 :: b3 :: rest => word32 b0 b1 b2 b3 :: toWords rest
  | _ => []

/-- Group words into blocks of 16.  The `Nat` argument is structural fuel;
each step drops 16 words from a non-empty list, so fuel equal to the word
count always suffices. -/
def toBlocksGo : Nat → List Nat → List (List Nat)
  | _, [] => []
  | 0, _ :: _ => []
  | fuel + 1, w :: rest => (w :: rest).take 16 :: toBlocksGo fuel ((w :: rest).drop 16)

def toBlocks (ws : List Nat) : List (List Nat) := toBlocksGo ws.length ws

def rotr32 (n w : Nat) : Nat := (w / 2 ^ n + w % 2 ^ n * 2 ^ (32 - n)) % M32

def shr32 (n w : Nat) : Nat := w / 2 ^ n

def bSig0 (x : Nat) : Nat := Nat.xor (rotr32 2 x) (Nat.xor (rotr32 13 x) (rotr32 22 x))

def bSig1 (x : Nat) : Nat := Nat.xor (rotr32 6 x) (Nat.xor (rotr32 11 x) (rotr32 25 x))

def sSig0 (x : Nat) : Nat := Nat.xor (rotr32 7 x) (Nat.xor (rotr32 18 x) (shr32 3 x))

def sSig1 (x : Nat) : Nat := Nat.xor (rotr32 17 x) (Nat.xor (rotr32 19 x) (shr32 10 x))

def chFn (e f g : Nat) : Nat := Nat.xor (Nat.land e f) (Nat.land (Nat.xor e 4294967295) g)

def majFn (a b c : Nat) : Nat :=
  Nat.xor (Nat.land a b) (Nat.xor (Nat.land a c) (Nat.land b c))

/-- The 64 SHA-256 round constants. -/
def sha256K : List Nat :=
  [1116352408, 1899447441, 3049323471, 3921009573, 961987163, 1508970993,
   2453635748, 2870763221, 3624381080, 310598401, 607225278, 1426881987,
   1925078388, 2162078206, 2614888103, 3248222580, 3835390401, 4022224774,
   264347078, 604807628, 770255983, 1249150122, 1555081692, 1996064986,
   2554220882, 2821834349, 2952996808, 3210313671, 3336571891, 3584528711,
   113926993, 338241895, 666307205, 773529912, 1294757372, 1396182291,
   1695183700, 1986661051, 2177026350, 2456956037, 2730485921, 2820302411,
   3259730800, 3345764771, 3516065817, 3600352804, 4094571909, 275423344,
   430227734, 506948616, 659060556, 883997877, 958139571, 1322822218,
   1537002063, 1747873779, 1955562222, 2024104815, 2227730452, 2361852424,
   2428436474, 2756734187, 3204031479, 3329325298]

/-- Initial SHA-256 state. -/
def sha256H0 : List Nat :=
  [1779033703, 3144134277, 1013904242, 2773480762, 1359893119, 2600822924,
   528734635, 1541459225]

/-- Extend a 16-word block to the 64-word message schedule. -/
def extendSchedule : List Nat → Nat → List Nat
  | acc, 0 => acc
  | acc, k + 1 =>
    let n := acc.length
    let w := (sSig1 (acc.getD (n - 2) 0) + acc.getD (n - 7) 0 +
              sSig0 (acc.getD (n - 15) 0) + acc.getD (n - 16) 0) % M32
    extendSchedule (acc ++ [w]) k

/-- One SHA-256 compression round on the 8-word working state. -/
def sha256Round (st : List Nat) (w k : Nat) : List Nat :=
  let a := st.getD 0 0
  let b := st.getD 1 0
  let c := st.getD 2 0
  let d := st.getD 3 0
  let e := st.getD 4 0
  let f := st.getD 5 0
  let g := st.getD 6 0
  let hh := st.getD 7 0
  let t1 := (hh + bSig1 e + chFn e f g + k + w) % M32
  let t2 := (bSig0 a + majFn a b c) % M32
  [(t1 + t2) % M32, a, b, c, (d + t1) % M32, e, f, g]

/-- Compress one 512-bit block into the hash state. -/
def sha256Compress (h : List Nat) (block : List Nat) : List Nat :=
  let w := extendSchedule block 48
  let st := (List.range 64).foldl (fun st t => sha256Round st (w.getD t 0) (sha256K.getD t 0)) h
  List.zipWith (fun x y => (x + y) % M32) h st

/-- SHA-256 digest (8 words) of a byte list. -/
def sha256Words (msg : List Nat) : List Nat :=
  (toBlocks (toWords (sha256pad msg))).foldl sha256Compress sha256H0

def hexDigit (n : Nat) : Char := "0123456789abcdef".data.getD n '0'

/-- Lowercase hexadecimal rendering of one 32-bit word (8 digits). -/
def wordHex (w : Nat) : List Char :=
  [hexDigit (w / 268435456 % 16), hexDigit (w / 16777216 % 16),
   hexDigit (w / 1048576 % 16), hexDigit (w / 65536 % 16),
   hexDigit (w / 4096 % 16), hexDigit (w / 256 % 16),
   hexDigit (w / 16 % 16), hexDigit (w % 16)]

/-- Python `hashlib.sha256(s.encode('utf-8')).hexdigest()`. -/
def sha256hex (s : String) : String :=
  ⟨(sha256Words (utf8Bytes s.data)).foldr (fun w acc => wordHex w ++ acc) []⟩

/-! ## SectionChunker: header pattern cascade

Each of the nine entries of `SectionChunker.section_patterns` is translated
into an equivalent recognizer.  All patterns are applied with
`re.IGNORECASE` and anchored at the start (`re.match`); `group(1)` is the
section number, `group(2)` the raw title.  `\s+(.+)` is matched with the
regex engine's greedy-with-backtracking semantics: the whitespace run is
maximal such that at least one non-newline character follows, and `(.+)`
takes the maximal run of non-newline characters from there. -/

def isDigitC (c : Char) : Bool := 48 ≤ c.toNat && c.toNat ≤ 57

def isAsciiLetter (c : Char) : Bool :=
  (65 ≤ c.toNat && c.toNat ≤ 90) || (97 ≤ c.toNat && c.toNat ≤ 122)

/-- `[IVX]` under `re.IGNORECASE`. -/
def isRomanCI (c : Char) : Bool :=
  c = 'I' || c = 'V' || c = 'X' || c = 'i' || c = 'v' || c = 'x'

/-- Backtracking tail of `\s+(.+)`: try whitespace-run lengths `k, k-1, …, 1`;
at the first `k` where a non-newline character follows, `(.+)` captures the
maximal non-newline run. -/
def tryTailK (l : List Char) : Nat → Option (List Char)
  | 0 => none
  | k + 1 =>
    match l.drop (k + 1) with
    | [] => tryTailK l k
    | c :: rest =>
      if c = '\n' then tryTailK l k
      else some (c :: rest.takeWhile (fun d => !(d = '\n')))

/-- Match `\s+(.+)` at the start of `l`, returning the `(.+)` capture. -/
def matchWsTail (l : List Char) : Option (List Char) :=
  tryTailK l (l.takeWhile isPyWs).length

/-- Match `\.?\s+(.+)` at the start of `l` (greedy optional dot first). -/
def matchOptDotWsTail (l : List Char) : Option (List Char) :=
  match l with
  | '.' :: r =>
    match matchWsTail r with
    | some t => some t
    | none => matchWsTail l
  | _ => matchWsTail l

/-- `^(\d+)\.\s+(.+)` -/
def pat1 (l : List Char) : Option (List Char × List Char) :=
  let ds := l.takeWhile isDigitC
  if ds.isEmpty then none
  else
    match l.drop ds.length with
    | '.' :: rest => (matchWsTail rest).map (fun t => (ds, t))
    | _ => none

/-- `^(\d+\.\d+)\.?\s+(.+)` -/
def pat2 (l : List Char) : Option (List Char × List Char) :=
  let d1 := l.takeWhile isDigitC
  if d1.isEmpty then none
  else
    match l.drop d1.length with
    | '.' :: r1 =>
      let d2 := r1.takeWhile isDigitC
      if d2.isEmpty then none
      else (matchOptDotWsTail (r1.drop d2.length)).map
        (fun t => (d1 ++ '.' :: d2, t))
    | _ => none

/-- `^(\d+\.\d+\.\d+)\.?\s+(.+)` -/
def pat3 (l : List Char) : Option (List Char × List Char) :=
  let d1 := l.takeWhile isDigitC
  if d1.isEmpty then none
  else
    match l.drop d1.length with
    | '.' :: r1 =>
      let d2 := r1.takeWhile isDigitC
      if d2.isEmpty then none
      else
        match r1.drop d2.length with
        | '.' :: r2 =>
          let d3 := r2.takeWhile isDigitC
          if d3.isEmpty then none
          else (matchOptDotWsTail (r2.drop d3.length)).map
            (fun t => (d1 ++ '.' :: d2 ++ '.' :: d3, t))
        | _ => none
    | _ => none

/-- `^([A-Z])\.\s+(.+)` with `re.IGNORECASE` -/
def pat4 (l : List Char) : Option (List Char × List Char) :=
  match l with
  | c :: '.' :: rest =>
    if isAsciiLetter c then (matchWsTail rest).map (fun t => ([c], t)) else none
  | _ => none

/-- `^([IVX]+)\.\s+(.+)` with `re.IGNORECASE` -/
def pat5 (l : List Char) : Option (List Char × List Char) :=
  let rs := l.takeWhile isRomanCI
  if rs.isEmpty then none
  else
    match l.drop rs.length with
    | '.' :: rest => (matchWsTail rest).map (fun t => (rs, t))
    | _ => none

/-- Consume a literal case-insensitively (the pattern side is lowercase). -/
def stripLitCI : List Char → List Char → Option (List Char)
  | [], l => some l
  | _ :: _, [] => none
  | c :: cs, d :: ds => if pyLowerChar d = c then stripLitCI cs ds else none

/-- `^Section\s+(\d+):?\s+(.+)` with `re.IGNORECASE` (the `^SECTION` variant
recognizes exactly the same language). -/
def pat6 (l : List Char) : Option (List Char × List Char) :=
  match stripLitCI "section".data l with
  | none => none
  | some rest =>
    let m := (rest.takeWhile isPyWs).length
    if m = 0 then none
    else
      let r1 := rest.drop m
      let ds := r1.takeWhile isDigitC
      if ds.isEmpty then none
      else
        let r2 := r1.drop ds.length
        let tail :=
          match r2 with
          | ':' :: r3 =>
            match matchWsTail r3 with
            | some t => some t
            | none => matchWsTail r2
          | _ => matchWsTail r2
        tail.map (fun t => (ds, t))

/-- `^(\d+)\)\s+(.+)` -/
def pat8 (l : List Char) : Option (List Char × List Char) :=
  let ds := l.takeWhile isDigitC
  if ds.isEmpty then none
  else
    match l.drop ds.length with
    | ')' :: rest => (matchWsTail rest).map (fun t => (ds, t))
    | _ => none

/-- `^([a-z])\)\s+(.+)` with `re.IGNORECASE` -/
def pat9 (l : List Char) : Option (List Char × List Char) :=
  match l with
  | c :: ')' :: rest =>
    if isAsciiLetter c then (matchWsTail rest).map (fun t => ([c], t)) else none
  | _ => none

/-! ## SectionChunker: level, validity, parents, sections -/

def isDigitStr (l : List Char) : Bool := !l.isEmpty && l.all isDigitC

/-- `^\d+\.\d+$` -/
def isDottedPair (l : List Char) : Bool :=
  match splitChar '.' l with
  | [a, b] => !a.isEmpty && a.all isDigitC && !b.isEmpty && b.all isDigitC
  | _ => false

/-- `^\d+\.\d+\.\d+$` -/
def isDottedTriple (l : List Char) : Bool :=
  match splitChar '.' l with
  | [a, b, c] => !a.isEmpty && a.all isDigitC && !b.isEmpty && b.all isDigitC
      && !c.isEmpty && c.all isDigitC
  | _ => false

/-- `^[A-Z]$` -/
def isSingleUpper (l : List Char) : Bool :=
  match l with
  | [c] => 65 ≤ c.toNat && c.toNat ≤ 90
  | _ => false

/-- `^[IVX]+$` (uppercase only: this check is done without `re.IGNORECASE`). -/
def isRomanUpperStr (l : List Char) : Bool :=
  !l.isEmpty && l.all (fun c => c = 'I' || c = 'V' || c = 'X')

/-- `^[a-z]$` -/
def isSingleLower (l : List Char) : Bool :=
  match l with
  | [c] => 97 ≤ c.toNat && c.toNat ≤ 122
  | _ => false

/-- `SectionChunker._determine_section_level`. -/
def determineSectionLevel (number : String) : Nat :=
  if isDigitStr number.data then 1
  else if isDottedPair number.data then 2
  else if isDottedTriple number.data then 3
  else if isSingleUpper number.data then 1
  else if isRomanUpperStr number.data then 1
  else if isSingleLower number.data then 2
  else 1

/-- `SectionChunker._is_valid_section`. -/
def isValidSection (title : String) : Bool :=
  if (pyStrip title.data).length < 2 then false
  else if title.data.length > 100 then false
  else if !title.data.isEmpty &&
      title.data.all (fun c => isDigitC c || isPyWs c || c = '.' || c = '-' || c = '_') then
    false
  else true

/-- One step of the pattern cascade of `_match_section_header`: on a regex
match, strip the captured title, derive the level from the captured number,
and accept only if the title passes the validity filter; otherwise the
cascade continues with the next pattern. -/
def tryPat (p : List Char → Option (List Char × List Char)) (l : List Char) :
    Option (Nat × String × String) :=
  match p l with
  | none => none
  | some (num, titleRaw) =>
    let title : String := ⟨pyStrip titleRaw⟩
    if isValidSection title then some (determineSectionLevel ⟨num⟩, ⟨num⟩, title)
    else none

/-- `SectionChunker._match_section_header` (pattern 7, the `^SECTION`
variant, recognizes the same language as pattern 6 under `re.IGNORECASE`,
so a second identical attempt is observationally the first one). -/
def matchSectionHeader (line : String) : Option (Nat × String × String) :=
  (tryPat pat1 line.data).orElse fun _ =>
  (tryPat pat2 line.data).orElse fun _ =>
  (tryPat pat3 line.data).orElse fun _ =>
  (tryPat pat4 line.data).orElse fun _ =>
  (tryPat pat5 line.data).orElse fun _ =>
  (tryPat pat6 line.data).orElse fun _ =>
  (tryPat pat6 line.data).orElse fun _ =>
  (tryPat pat8 line.data).orElse fun _ =>
  (tryPat pat9 line.data)

/-- The `Section` record of `section_chunker.py`. -/
structure Section where
  level : Nat
  number : String
  title : String
  content : String
  start_pos : Nat
  end_pos : Nat
  parent_section : Option String
deriving DecidableEq, Repr

/-- `'.'.join(pieces)`. -/
def joinDot : List (List Char) → List Char
  | [] => []
  | [p] => p
  | p :: q :: r => p ++ '.' :: joinDot (q :: r)

/-- `SectionChunker._find_parent_section`. -/
def findParentSection (number : String) (existing : List Section) : Option String :=
  if number.data.contains '.' && !(number == "auto") then
    let parts := splitChar '.' number.data
    if parts.length > 1 then
      let parentNumber : String := ⟨joinDot parts.dropLast⟩
      if existing.any (fun s => s.number == parentNumber) then some parentNumber
      else none
    else none
  else none

/-- `SectionChunker._get_text_position`. -/
def getTextPosition (text : String) (lineIndex : Nat) : Nat :=
  let lines := splitChar '\n' text.data
  ((lines.take (min lineIndex lines.length)).map (fun l => l.length + 1)).sum

/-- The line loop of `detect_sections`: state is the emitted sections, the
open section, and the buffered (stripped) body lines; the final open
section is flushed with `end_pos = len(text)`. -/
def detectLoop (text : String) :
    List (Nat × List Char) → List Section → Option Section → List (List Char) → List Section
  | [], secs, cur, buf =>
    match cur with
    | some c => secs ++ [{ c with content := ⟨pyStrip (joinNL buf)⟩, end_pos := text.length }]
    | none => secs
  | (i, line) :: rest, secs, cur, buf =>
    let ls := pyStrip line
    match (if ls.isEmpty then none else matchSectionHeader ⟨ls⟩) with
    | some lnt =>
      let secs' :=
        match cur with
        | some c =>
          secs ++ [{ c with
            content := ⟨pyStrip (joinNL buf)⟩
            end_pos := getTextPosition text i }]
        | none => secs
      detectLoop text rest secs'
        (some { level := lnt.1
                number := lnt.2.1
                title := lnt.2.2
                content := ""
                start_pos := getTextPosition text i
                end_pos := 0
                parent_section := findParentSection lnt.2.1 secs' }) []
    | none =>
      match cur with
      | some _ => detectLoop text rest secs cur (buf ++ [ls])
      | none => detectLoop text rest secs cur buf

/-- `SectionChunker.detect_sections`. -/
def detectSections (text : String) : List Section :=
  let lines := splitChar '\n' text.data
  let secs := detectLoop text lines.enum [] none []
  if secs.isEmpty then
    [{ level := 1
       number := "1"
       title := "Document Content"
       content := ⟨pyStrip text.data⟩
       start_pos := 0
       end_pos := text.length
       parent_section := none }]
  else secs

/-! ## SectionChunker: hashing and chunk construction -/

/-- The normalization inside `_generate_content_hash`:
`text.strip().lower()` followed by `re.sub(r'\s+', ' ', ...)`. -/
def pyNormalize (l : List Char) : List Char :=
  collapseWs ((pyStrip l).map pyLowerChar)

/-- `SectionChunker._generate_content_hash`: strip, lowercase, collapse
whitespace, SHA-256. -/
def generateContentHash (text : String) : String :=
  sha256hex ⟨pyNormalize text.data⟩

/-- One entry of the `sentence_hashes` list. -/
structure SentenceHash where
  sentence_index : Nat
  sentence_text : String
  sentence_hash : String
  word_count : Nat
deriving DecidableEq, Repr

/-- `SectionChunker._generate_sentence_hashes`. -/
def generateSentenceHashes (text : String) : List SentenceHash :=
  (splitPunct text.data).enum.filterMap fun p =>
    let s := pyStrip p.2
    if s.length > 10 then
      some { sentence_index := p.1
             sentence_text := ⟨s⟩
             sentence_hash := sha256hex ⟨collapseWs (pyStrip (s.map pyLowerChar))⟩
             word_count := pyWordCount s }
    else none

/-- A chunk index: an `int` for section chunks, a dotted string (built by
an f-string) for sub-chunks. -/
inductive ChunkIndex where
  | ofNat (n : Nat)
  | ofStr (s : String)
deriving DecidableEq, Repr

/-- How Python's f-string renders a chunk index. -/
def ChunkIndex.render : ChunkIndex → String
  | .ofNat n => toString n
  | .ofStr s => s

structure ChunkMetadata where
  chunk_index : ChunkIndex
  section_level : Nat
  section_number : String
  section_title : String
  parent_section : String
  start_char : Nat
  end_char : Nat
  char_count : Nat
  word_count : Nat
  chunk_type : String
  filename : String
  content_hash : String
  hash_type : String
  sentence_count : Nat
  sub_chunk_index : Option Nat
deriving DecidableEq, Repr

/-- A chunk dictionary.  `sentence_hashes = none` models the absence of the
key (sub-chunks built by `_subdivide_large_section` do not carry it). -/
structure Chunk where
  text : String
  content_hash : String
  sentence_hashes : Option (List SentenceHash)
  metadata : ChunkMetadata
deriving DecidableEq, Repr

/-- The paragraph candidates of `_subdivide_large_section`:
`[p.strip() for p in content.split('\n\n') if p.strip()]`. -/
def paraSplit (content : List Char) : List (List Char) :=
  (splitNN content).filterMap fun p =>
    let q := pyStrip p
    if q.isEmpty then none else some q

/-- The sentence-packing fallback of `_subdivide_large_section`. -/
def sentenceFallback (content : List Char) : List (List Char) :=
  let sentences := splitSentSep content
  let step := fun (acc : List (List Char) × List Char) (s : List Char) =>
    if (acc.2 ++ s).length < 1000 then (acc.1, acc.2 ++ s ++ ['.', ' '])
    else if acc.2.isEmpty then (acc.1, s ++ ['.', ' '])
    else (acc.1 ++ [pyStrip acc.2], s ++ ['.', ' '])
  let fin := sentences.foldl step ([], [])
  if fin.2.isEmpty then fin.1 else fin.1 ++ [pyStrip fin.2]

/-- `SectionChunker._subdivide_large_section`. -/
def subdivideLargeSection (chunk : Chunk) : List Chunk :=
  let content := chunk.text
  let md := chunk.metadata
  let paragraphs0 := paraSplit content.data
  let paragraphs := if paragraphs0.length ≤ 1 then sentenceFallback content.data
    else paragraphs0
  let subChunks := paragraphs.enum.filterMap fun p =>
    if (pyStrip p.2).length < 30 then none
    else
      let subContentHash := generateContentHash ⟨p.2⟩
      some { text := ⟨p.2⟩
             content_hash := subContentHash
             sentence_hashes := none
             metadata := { md with
               chunk_index := .ofStr (md.chunk_index.render ++ "." ++ toString p.1)
               sub_chunk_index := some p.1
               char_count := p.2.length
               word_count := pyWordCount p.2
               chunk_type := "section_subdivision"
               content_hash := subContentHash
               hash_type := "content" } }
  if subChunks.isEmpty then [chunk] else subChunks

/-- `SectionChunker.create_section_chunks`. -/
def createSectionChunks (text filename : String) : List Chunk :=
  let sections := detectSections text
  let chunks := sections.enum.filterMap fun p =>
    if (pyStrip p.2.content.data).length < 50 then none
    else
      let contentHash := generateContentHash p.2.content
      let sentenceHashes := generateSentenceHashes p.2.content
      some { text := p.2.content
             content_hash := contentHash
             sentence_hashes := some sentenceHashes
             metadata := {
               chunk_index := .ofNat p.1
               section_level := p.2.level
               section_number := p.2.number
               section_title := p.2.title
               parent_section := p.2.parent_section.getD "none"
               start_char := p.2.start_pos
               end_char := p.2.end_pos
               char_count := p.2.content.length
               word_count := if p.2.content == "" then 0 else pyWordCount p.2.content.data
               chunk_type := "section_based"
               filename := filename
               content_hash := contentHash
               hash_type := "content"
               sentence_count := sentenceHashes.length
               sub_chunk_index := none } }
  (chunks.map fun c =>
    if c.metadata.char_count > 2000 then subdivideLargeSection c else [c]).join

/-! ## ExactMatchService

Python `dict`s are insertion-ordered association lists with unique keys;
Python `set`s are duplicate-free lists with ordered insertion.  The
`defaultdict` reads performed by the query operations are modelled as
lookups defaulting to the empty list.  `_save_data` is modelled as storing
a snapshot of the four maps in the `disk` field (the JSON serialization is
a bijective rendering of that snapshot). -/

/-- `dict` lookup (first matching key). -/
def lookupA {α : Type} : List (String × α) → String → Option α
  | [], _ => none
  | (k, v) :: rest, key => if k = key then some v else lookupA rest key

/-- `defaultdict(list)` read-then-`append`: `m[key].append(v)`. -/
def appendEntry {α : Type} (m : List (String × List α)) (key : String) (v : α) :
    List (String × List α) :=
  match m with
  | [] => [(key, [v])]
  | (k, vs) :: rest =>
    if k = key then (k, vs ++ [v]) :: rest else (k, vs) :: appendEntry rest key v

/-- `set.add` on one value list. -/
def setAdd (vs : List String) (h : String) : List String :=
  if h ∈ vs then vs else vs ++ [h]

/-- `defaultdict(set)` read-then-`add`: `m[key].add(h)`. -/
def setInsert (m : List (String × List String)) (key h : String) :
    List (String × List String) :=
  match m with
  | [] => [(key, [h])]
  | (k, vs) :: rest =>
    if k = key then (k, setAdd vs h) :: rest else (k, vs) :: setInsert rest key h

/-- `m[key] = v` for an existing key. -/
def setValue {α : Type} (m : List (String × α)) (key : String) (v : α) :
    List (String × α) :=
  match m with
  | [] => []
  | (k, w) :: rest =>
    if k = key then (k, v) :: rest else (k, w) :: setValue rest key v

/-- `del m[key]`. -/
def eraseKey {α : Type} (m : List (String × α)) (key : String) :
    List (String × α) :=
  match m with
  | [] => []
  | (k, w) :: rest => if k = key then rest else (k, w) :: eraseKey rest key

/-- The `ChunkRef` record appended to `hash_to_documents`. -/
structure ChunkRef where
  document_name : String
  chunk_index : ChunkIndex
  section_number : String
  section_title : String
  content : String
  text_preview : String
  word_count : Nat
  char_count : Nat
deriving DecidableEq, Repr

/-- The sentence-level reference appended to `sentence_hash_to_documents`. -/
structure SentenceRef where
  document_name : String
  chunk_index : ChunkIndex
  section_number : String
  section_title : String
  sentence_index : Nat
  sentence_text : String
  word_count : Nat
deriving DecidableEq, Repr

/-- The chunk reference built inside `add_document_chunks`. -/
def mkChunkRef (document_name : String) (c : Chunk) : ChunkRef :=
  { document_name := document_name
    chunk_index := c.metadata.chunk_index
    section_number := c.metadata.section_number
    section_title := c.metadata.section_title
    content := c.text
    text_preview :=
      if c.text.length > 100 then ⟨c.text.data.take 100⟩ ++ "..." else c.text
    word_count := c.metadata.word_count
    char_count := c.metadata.char_count }

/-- The sentence reference built inside `add_document_chunks`. -/
def mkSentenceRef (document_name : String) (c : Chunk) (sd : SentenceHash) : SentenceRef :=
  { document_name := document_name
    chunk_index := c.metadata.chunk_index
    section_number := c.metadata.section_number
    section_title := c.metadata.section_title
    sentence_index := sd.sentence_index
    sentence_text := sd.sentence_text
    word_count := sd.word_count }

/-- The contents of the persistence file (`_save_data` JSON object). -/
structure Snapshot where
  hash_to_documents : List (String × List ChunkRef)
  sentence_hash_to_documents : List (String × List SentenceRef)
  document_to_hashes : List (String × List String)
  document_to_sentence_hashes : List (String × List String)
deriving DecidableEq, Repr

/-- The in-memory state of `ExactMatchService` plus the persisted file. -/
structure EMState where
  hash_to_documents : List (String × List ChunkRef)
  sentence_hash_to_documents : List (String × List SentenceRef)
  document_to_hashes : List (String × List String)
  document_to_sentence_hashes : List (String × List String)
  disk : Option Snapshot
deriving DecidableEq, Repr

/-- Fresh service state (no persistence file present at startup). -/
def emptyState : EMState :=
  { hash_to_documents := []
    sentence_hash_to_documents := []
    document_to_hashes := []
    document_to_sentence_hashes := []
    disk := none }

/-- `ExactMatchService._save_data` as a snapshot of the four maps. -/
def mkSnapshot (s : EMState) : Snapshot :=
  { hash_to_documents := s.hash_to_documents
    sentence_hash_to_documents := s.sentence_hash_to_documents
    document_to_hashes := s.document_to_hashes
    document_to_sentence_hashes := s.document_to_sentence_hashes }

/-- The sentence-hash inner loop of `add_document_chunks` for one chunk. -/
def addSentences (document_name : String) (c : Chunk) (st : EMState) : EMState :=
  (c.sentence_hashes.getD []).foldl
    (fun st2 sd =>
      if sd.sentence_hash = "" then st2
      else
        { st2 with
          sentence_hash_to_documents :=
            appendEntry st2.sentence_hash_to_documents sd.sentence_hash
              (mkSentenceRef document_name c sd)
          document_to_sentence_hashes :=
            setInsert st2.document_to_sentence_hashes document_name sd.sentence_hash })
    st

/-- The per-chunk body of `add_document_chunks`: chunks without a (truthy)
`content_hash` are skipped entirely. -/
def addChunkStep (document_name : String) (st : EMState) (c : Chunk) : EMState :=
  if c.content_hash = "" then st
  else
    addSentences document_name c
      { st with
        hash_to_documents :=
          appendEntry st.hash_to_documents c.content_hash (mkChunkRef document_name c)
        document_to_hashes :=
          setInsert st.document_to_hashes document_name c.content_hash }

/-- `ExactMatchService.add_document_chunks` (ends with `_save_data`). -/
def addDocumentChunks (s : EMState) (document_name : String) (chunks : List Chunk) :
    EMState :=
  let s1 := chunks.foldl (addChunkStep document_name) s
  { s1 with disk := some (mkSnapshot s1) }

/-- One iteration of the removal loop of `remove_document`. -/
def removeStep (document_name : String) (acc : Nat × List (String × List ChunkRef))
    (content_hash : String) : Nat × List (String × List ChunkRef) :=
  match lookupA acc.2 content_hash with
  | none => acc
  | some refs =>
    let refs' := refs.filter (fun r => !(r.document_name = document_name))
    if refs'.isEmpty then (acc.1 + 1, eraseKey acc.2 content_hash)
    else (acc.1 + 1, setValue acc.2 content_hash refs')

/-- `ExactMatchService.remove_document`: returns the removed count and the
new state.  The sentence-level maps are not touched, and no save happens. -/
def removeDocument (s : EMState) (document_name : String) : Nat × EMState :=
  match lookupA s.document_to_hashes document_name with
  | none => (0, s)
  | some documentHashes =>
    let fin := documentHashes.foldl (removeStep document_name) (0, s.hash_to_documents)
    (fin.1, { s with
      hash_to_documents := fin.2
      document_to_hashes := eraseKey s.document_to_hashes document_name })

/-- One reported match of `find_exact_matches`. -/
structure MatchInfo where
  content_hash : String
  matching_documents : List ChunkRef
  total_matches : Nat
  section_info : Option ChunkRef
deriving DecidableEq, Repr

/-- Result dictionary of `find_exact_matches`. -/
inductive FindResult where
  | err (error : String) («matches» : List MatchInfo)
  | ok (document : String) (total_unique_sections : Nat) (exact_matches : Nat)
      («matches» : List MatchInfo)
deriving DecidableEq, Repr

/-- `ExactMatchService.find_exact_matches`. -/
def findExactMatches (s : EMState) (document_name : String) : FindResult :=
  match lookupA s.document_to_hashes document_name with
  | none => .err "Document not found" []
  | some documentHashes =>
    let «matches» := documentHashes.foldl
      (fun acc contentHash =>
        let hashDocuments := (lookupA s.hash_to_documents contentHash).getD []
        if hashDocuments.length > 1 then
          let otherDocs := hashDocuments.filter
            (fun d => !(d.document_name = document_name))
          if otherDocs.isEmpty then acc
          else acc ++ [{ content_hash := contentHash
                         matching_documents := otherDocs
                         total_matches := hashDocuments.length
                         section_info := hashDocuments.find?
                           (fun d => d.document_name = document_name) }]
        else acc) []
    .ok document_name documentHashes.length «matches».length «matches»

/-- One detailed match of `compare_documents_exact`. -/
structure MatchDetail where
  content_hash : String
  doc1_section : ChunkRef
  doc2_section : ChunkRef
  matched_content : String
  section_title : String
  section_number : String
  char_count : Nat
  word_count : Nat
deriving DecidableEq, Repr

/-- Result dictionary of `compare_documents_exact`. -/
inductive CompareResult where
  | err (error : String)
  | ok (doc1 doc2 : String) (doc1_total_sections doc2_total_sections : Nat)
      (common_sections : Nat) (exact_match_score : ℚ) («matches» : List MatchDetail)
deriving DecidableEq, Repr

/-- The `common_sections` field, when the comparison succeeded. -/
def CompareResult.commonSections : CompareResult → Option Nat
  | .err _ => none
  | .ok _ _ _ _ c _ _ => some c

/-- The `exact_match_score` field, when the comparison succeeded. -/
def CompareResult.score : CompareResult → Option ℚ
  | .err _ => none
  | .ok _ _ _ _ _ q _ => some q

/-- `ExactMatchService.compare_documents_exact`.  Python's
`int / int` true division is exact rational division here. -/
def compareDocumentsExact (s : EMState) (doc1_name doc2_name : String) :
    CompareResult :=
  match lookupA s.document_to_hashes doc1_name,
        lookupA s.document_to_hashes doc2_name with
  | some doc1Hashes, some doc2Hashes =>
    let commonHashes := doc1Hashes.filter (fun h => h ∈ doc2Hashes)
    let «matches» := commonHashes.filterMap (fun contentHash =>
      let hashDocuments := (lookupA s.hash_to_documents contentHash).getD []
      match hashDocuments.find? (fun d => d.document_name = doc1_name),
            hashDocuments.find? (fun d => d.document_name = doc2_name) with
      | some m1, some m2 =>
        some { content_hash := contentHash
               doc1_section := m1
               doc2_section := m2
               matched_content := m1.content
               section_title := m1.section_title
               section_number := m1.section_number
               char_count := m1.char_count
               word_count := m1.word_count }
      | _, _ => none)
    let score : ℚ :=
      if doc1Hashes.length + doc2Hashes.length > 0 then
        (commonHashes.length * 2 : ℚ) / ((doc1Hashes.length : ℚ) + (doc2Hashes.length : ℚ))
      else 0
    .ok doc1_name doc2_name doc1Hashes.length doc2Hashes.length
      commonHashes.length score «matches»
  | _, _ => .err "One or both documents not found"

/-- One sentence-level match of `compare_documents_sentence_level`. -/
structure SentenceMatch where
  sentence_hash : String
  doc1_sentence : SentenceRef
  doc2_sentence : SentenceRef
  matched_sentence : String
  section_title : String
  section_number : String
  sentence_index : Nat
deriving DecidableEq, Repr

/-- Result dictionary of `compare_documents_sentence_level`. -/
inductive SentenceCompareResult where
  | err (error : String)
  | ok (doc1 doc2 : String) (doc1_total_sentences doc2_total_sentences : Nat)
      (common_sentences : Nat) (sentence_match_score : ℚ)
      (sentence_matches : List SentenceMatch)
deriving DecidableEq, Repr

/-- `ExactMatchService.compare_documents_sentence_level`. -/
def compareDocumentsSentenceLevel (s : EMState) (doc1_name doc2_name : String) :
    SentenceCompareResult :=
  match lookupA s.document_to_sentence_hashes doc1_name,
        lookupA s.document_to_sentence_hashes doc2_name with
  | some doc1Hashes, some doc2Hashes =>
    let commonHashes := doc1Hashes.filter (fun h => h ∈ doc2Hashes)
    let «matches» := commonHashes.filterMap (fun sentenceHash =>
      let sentenceDocuments := (lookupA s.sentence_hash_to_documents sentenceHash).getD []
      match sentenceDocuments.find? (fun d => d.document_name = doc1_name),
            sentenceDocuments.find? (fun d => d.document_name = doc2_name) with
      | some m1, some m2 =>
        some { sentence_hash := sentenceHash
               doc1_sentence := m1
               doc2_sentence := m2
               matched_sentence := m1.sentence_text
               section_title := m1.section_title
               section_number := m1.section_number
               sentence_index := m1.sentence_index }
      | _, _ => none)
    let score : ℚ :=
      if doc1Hashes.length + doc2Hashes.length > 0 then
        (commonHashes.length * 2 : ℚ) / ((doc1Hashes.length : ℚ) + (doc2Hashes.length : ℚ))
      else 0
    .ok doc1_name doc2_name doc1Hashes.length doc2Hashes.length
      commonHashes.length score «matches»
  | _, _ => .err "One or both documents not found"

/-- The states reachable from a fresh service by any sequence of
`add_document_chunks` and `remove_document` calls. -/
inductive Reachable : EMState → Prop where
  | empty : Reachable emptyState
  | add (s : EMState) (document_name : String) (chunks : List Chunk) :
      Reachable s → Reachable (addDocumentChunks s document_name chunks)
  | remove (s : EMState) (document_name : String) :
      Reachable s → Reachable (removeDocument s document_name).2

/-! ## Association-list lemmas -/

theorem lookupA_eq_none {α : Type} (m : List (String × α)) (key : String)
    (h : key ∉ m.map Prod.fst) : lookupA m key = none := by
  induction m with
  | nil => rfl
  | cons e rest ih =>
    simp only [List.map_cons, List.mem_cons] at h
    push_neg at h
    simp only [lookupA]
    rw [if_neg (fun he => h.1 he.symm)]
    exact ih h.2

theorem mem_keys_of_lookupA {α : Type} (m : List (String × α)) (key : String)
    (v : α) (h : lookupA m key = some v) : key ∈ m.map Prod.fst := by
  induction m with
  | nil => simp [lookupA] at h
  | cons e rest ih =>
    simp only [lookupA] at h
    by_cases he : e.1 = key
    · simp [he]
    · rw [if_neg he] at h
      simp [ih h]

theorem lookupA_appendEntry {α : Type} (m : List (String × List α)) (k : String)
    (v : α) (k' : String) :
    lookupA (appendEntry m k v) k' =
      if k' = k then some (((lookupA m k).getD []) ++ [v]) else lookupA m k' := by
  induction m with
  | nil =>
    by_cases h : k' = k
    · subst h; simp [appendEntry, lookupA]
    · simp only [appendEntry, lookupA, if_neg h,
        if_neg (fun (he : k = k') => h he.symm)]
  | cons e rest ih =>
    by_cases hk : e.1 = k
    · simp only [appendEntry, if_pos hk, lookupA]
      by_cases hk' : e.1 = k'
      · have hkk : k' = k := by rw [← hk', hk]
        simp [hkk, if_pos hk', lookupA, hk]
      · have hne : ¬ k' = k := fun he => hk' (by rw [hk, ← he])
        simp [hk', hne, lookupA]
    · simp only [appendEntry, if_neg hk, lookupA]
      by_cases hk' : e.1 = k'
      · have hne : ¬ k' = k := fun he => hk (by rw [hk', he])
        simp [hk', hne]
      · simp [hk', hk, ih, lookupA]

theorem lookupA_setValue {α : Type} (m : List (String × α)) (k : String) (v : α)
    (k' : String) :
    lookupA (setValue m k v) k' =
      if k' = k then (lookupA m k).map (fun _ => v) else lookupA m k' := by
  induction m with
  | nil =>
    by_cases h : k' = k
    · subst h; simp [setValue, lookupA]
    · simp [setValue, lookupA, h]
  | cons e rest ih =>
    by_cases hk : e.1 = k
    · simp only [setValue, if_pos hk, lookupA]
      by_cases hk' : e.1 = k'
      · have hkk : k' = k := by rw [← hk', hk]
        simp [hkk, if_pos hk', lookupA, hk]
      · have hne : ¬ k' = k := fun he => hk' (by rw [hk, ← he])
        simp [hk', hne, lookupA]
    · simp only [setValue, if_neg hk, lookupA]
      by_cases hk' : e.1 = k'
      · have hne : ¬ k' = k := fun he => hk (by rw [hk', he])
        simp [hk', hne]
      · simp [hk', hk, ih, lookupA]

theorem lookupA_setInsert (m : List (String × List String)) (k h k' : String) :
    lookupA (setInsert m k h) k' =
      if k' = k then some (setAdd ((lookupA m k).getD []) h) else lookupA m k' := by
  induction m with
  | nil =>
    by_cases hkk : k' = k
    · subst hkk; simp [setInsert, lookupA, setAdd]
    · simp only [setInsert, lookupA, if_neg hkk,
        if_neg (fun (he : k = k') => hkk he.symm)]
  | cons e rest ih =>
    by_cases hk : e.1 = k
    · simp only [setInsert, if_pos hk, lookupA]
      by_cases hk' : e.1 = k'
      · have hkk : k' = k := by rw [← hk', hk]
        simp [hkk, if_pos hk', lookupA, hk]
      · have hne : ¬ k' = k := fun he => hk' (by rw [hk, ← he])
        simp [hk', hne, lookupA]
    · simp only [setInsert, if_neg hk, lookupA]
      by_cases hk' : e.1 = k'
      · have hne : ¬ k' = k := fun he => hk (by rw [hk', he])
        simp [hk', hne]
      · simp [hk', hk, ih, lookupA]

theorem lookupA_eraseKey {α : Type} (m : List (String × α)) (k k' : String)
    (hnd : (m.map Prod.fst).Nodup) :
    lookupA (eraseKey m k) k' = if k' = k then none else lookupA m k' := by
  induction m with
  | nil => simp [eraseKey, lookupA]
  | cons e rest ih =>
    simp only [List.map_cons, List.nodup_cons] at hnd
    by_cases hk : e.1 = k
    · simp only [eraseKey, if_pos hk]
      by_cases hkk : k' = k
      · subst hkk
        rw [if_pos rfl]
        exact lookupA_eq_none rest k' (hk ▸ hnd.1)
      · have hk' : ¬ e.1 = k' := fun he => hkk (by rw [← he, hk])
        simp [hkk, lookupA, hk']
    · simp only [eraseKey, if_neg hk, lookupA]
      by_cases hk' : e.1 = k'
      · have hne : ¬ k' = k := fun he => hk (by rw [hk', he])
        simp [hk', hne]
      · simp [hk', ih hnd.2]

theorem keys_appendEntry {α : Type} (m : List (String × List α)) (k : String)
    (v : α) :
    (appendEntry m k v).map Prod.fst =
      if k ∈ m.map Prod.fst then m.map Prod.fst else m.map Prod.fst ++ [k] := by
  induction m with
  | nil => simp [appendEntry]
  | cons e rest ih =>
    by_cases hk : e.1 = k
    · simp [appendEntry, hk]
    · simp only [appendEntry, if_neg hk, List.map_cons, ih, List.mem_cons]
      by_cases hm : k ∈ rest.map Prod.fst
      · simp [hm, fun (he : k = e.1) => hk he.symm]
      · have hne : ¬ (k = e.1) := fun he => hk he.symm
        simp [hm, hne]

theorem keys_setInsert (m : List (String × List String)) (k h : String) :
    (setInsert m k h).map Prod.fst =
      if k ∈ m.map Prod.fst then m.map Prod.fst else m.map Prod.fst ++ [k] := by
  induction m with
  | nil => simp [setInsert]
  | cons e rest ih =>
    by_cases hk : e.1 = k
    · simp [setInsert, hk]
    · simp only [setInsert, if_neg hk, List.map_cons, ih, List.mem_cons]
      by_cases hm : k ∈ rest.map Prod.fst
      · simp [hm, fun (he : k = e.1) => hk he.symm]
      · have hne : ¬ (k = e.1) := fun he => hk he.symm
        simp [hm, hne]

theorem keys_setValue {α : Type} (m : List (String × α)) (k : String) (v : α) :
    (setValue m k v).map Prod.fst = m.map Prod.fst := by
  induction m with
  | nil => simp [setValue]
  | cons e rest ih =>
    by_cases hk : e.1 = k
    · simp [setValue, hk]
    · simp [setValue, hk, ih]

theorem keys_eraseKey_sublist {α : Type} (m : List (String × α)) (k : String) :
    List.Sublist ((eraseKey m k).map Prod.fst) (m.map Prod.fst) := by
  induction m with
  | nil => simp [eraseKey]
  | cons e rest ih =>
    by_cases hk : e.1 = k
    · simp only [eraseKey, if_pos hk, List.map_cons]
      exact (List.sublist_cons_self _ _)
    · simp only [eraseKey, if_neg hk, List.map_cons]
      exact ih.cons₂ _

theorem nodup_keys_appendEntry {α : Type} (m : List (String × List α)) (k : String)
    (v : α) (hnd : (m.map Prod.fst).Nodup) :
    ((appendEntry m k v).map Prod.fst).Nodup := by
  rw [keys_appendEntry]
  by_cases hm : k ∈ m.map Prod.fst
  · simpa [hm]
  · simp [hm, List.nodup_append, hnd]

theorem nodup_keys_setInsert (m : List (String × List String)) (k h : String)
    (hnd : (m.map Prod.fst).Nodup) :
    ((setInsert m k h).map Prod.fst).Nodup := by
  rw [keys_setInsert]
  by_cases hm : k ∈ m.map Prod.fst
  · simpa [hm]
  · simp [hm, List.nodup_append, hnd]

theorem nodup_keys_setValue {α : Type} (m : List (String × α)) (k : String) (v : α)
    (hnd : (m.map Prod.fst).Nodup) : ((setValue m k v).map Prod.fst).Nodup := by
  rw [keys_setValue]; exact hnd

theorem nodup_keys_eraseKey {α : Type} (m : List (String × α)) (k : String)
    (hnd : (m.map Prod.fst).Nodup) : ((eraseKey m k).map Prod.fst).Nodup :=
  (keys_eraseKey_sublist m k).nodup hnd

theorem setAdd_nodup (vs : List String) (h : String) (hnd : vs.Nodup) :
    (setAdd vs h).Nodup := by
  unfold setAdd
  by_cases hm : h ∈ vs
  · simpa [hm]
  · simp [hm, List.nodup_append, hnd]

theorem setAdd_ne_nil (vs : List String) (h : String) : setAdd vs h ≠ [] := by
  unfold setAdd
  by_cases hm : h ∈ vs
  · rw [if_pos hm]
    rintro rfl
    simp at hm
  · rw [if_neg hm]
    simp

theorem mem_setAdd (vs : List String) (h x : String) :
    x ∈ setAdd vs h ↔ x ∈ vs ∨ x = h := by
  unfold setAdd
  by_cases hm : h ∈ vs
  · rw [if_pos hm]
    constructor
    · exact Or.inl
    · rintro (hx | rfl)
      · exact hx
      · exact hm
  · rw [if_neg hm]
    simp

/-! ## The index invariant and its preservation -/

/-- The bidirectional-consistency invariant of the spec: every hash owned
by a document in `document_to_hashes` is a key of `hash_to_documents`
whose reference list names that document. -/
def bidirectionallyConsistent (s : EMState) : Prop :=
  ∀ d hs, lookupA s.document_to_hashes d = some hs →
    ∀ h ∈ hs, ∃ refs, lookupA s.hash_to_documents h = some refs ∧
      ∃ r ∈ refs, r.document_name = d

/-- The full internal invariant of the section-level index maps. -/
structure IndexInv (s : EMState) : Prop where
  h2d_nodup : (s.hash_to_documents.map Prod.fst).Nodup
  d2h_nodup : (s.document_to_hashes.map Prod.fst).Nodup
  vals_nodup : ∀ d hs, lookupA s.document_to_hashes d = some hs → hs.Nodup
  vals_ne : ∀ d hs, lookupA s.document_to_hashes d = some hs → hs ≠ []
  owner : ∀ h refs, lookupA s.hash_to_documents h = some refs →
    ∀ r ∈ refs, ∃ hs, lookupA s.document_to_hashes r.document_name = some hs ∧ h ∈ hs
  bidir : bidirectionallyConsistent s

theorem indexInv_empty : IndexInv emptyState := by
  refine ⟨?_, ?_, ?_, ?_, ?_, ?_⟩ <;>
    simp [emptyState, lookupA, bidirectionallyConsistent]

theorem indexInv_disk (s : EMState) (d : Option Snapshot) (hi : IndexInv s) :
    IndexInv { s with disk := d } :=
  ⟨hi.h2d_nodup, hi.d2h_nodup, hi.vals_nodup, hi.vals_ne, hi.owner, hi.bidir⟩

theorem addSentences_h2d (document_name : String) (c : Chunk) (st : EMState) :
    (addSentences document_name c st).hash_to_documents = st.hash_to_documents ∧
    (addSentences document_name c st).document_to_hashes = st.document_to_hashes ∧
    (addSentences document_name c st).disk = st.disk := by
  unfold addSentences
  generalize (c.sentence_hashes.getD []) = l
  induction l generalizing st with
  | nil => exact ⟨rfl, rfl, rfl⟩
  | cons sd rest ih =>
    simp only [List.foldl_cons]
    by_cases h : sd.sentence_hash = ""
    · rw [if_pos h]; exact ih st
    · rw [if_neg h]; exact ih _

theorem appendEntry_preserves_witness (m : List (String × List ChunkRef))
    (ch : String) (ref : ChunkRef) (h d : String)
    (hw : ∃ refs, lookupA m h = some refs ∧ ∃ r ∈ refs, r.document_name = d) :
    ∃ refs, lookupA (appendEntry m ch ref) h = some refs ∧
      ∃ r ∈ refs, r.document_name = d := by
  rcases hw with ⟨refs, hl, r, hr, hn⟩
  rw [lookupA_appendEntry]
  by_cases hh : h = ch
  · subst hh
    rw [if_pos rfl, hl]
    exact ⟨refs ++ [ref], rfl, r, List.mem_append_left _ hr, hn⟩
  · rw [if_neg hh]
    exact ⟨refs, hl, r, hr, hn⟩

theorem setInsert_preserves_owner (m : List (String × List String))
    (n ch : String) (d h : String)
    (hw : ∃ hs, lookupA m d = some hs ∧ h ∈ hs) :
    ∃ hs, lookupA (setInsert m n ch) d = some hs ∧ h ∈ hs := by
  rcases hw with ⟨hs, hl, hmem⟩
  rw [lookupA_setInsert]
  by_cases hd : d = n
  · subst hd
    rw [if_pos rfl, hl]
    exact ⟨setAdd hs ch, rfl, (mem_setAdd hs ch h).mpr (Or.inl hmem)⟩
  · rw [if_neg hd]
    exact ⟨hs, hl, hmem⟩

theorem mem_getD_nil {α : Type} (o : Option (List α)) (x : α)
    (h : x ∈ o.getD []) : ∃ v, o = some v ∧ x ∈ v := by
  cases o with
  | none => simp at h
  | some v => exact ⟨v, rfl, by simpa using h⟩

theorem pairUpdate_inv (st : EMState) (n : String) (c : Chunk)
    (hi : IndexInv st) :
    IndexInv
      { st with
        hash_to_documents :=
          appendEntry st.hash_to_documents c.content_hash (mkChunkRef n c)
        document_to_hashes := setInsert st.document_to_hashes n c.content_hash } := by
  constructor
  · exact nodup_keys_appendEntry _ _ _ hi.h2d_nodup
  · exact nodup_keys_setInsert _ _ _ hi.d2h_nodup
  · intro d hs hl
    simp only [] at hl
    rw [lookupA_setInsert] at hl
    by_cases hd : d = n
    · rw [if_pos hd] at hl
      cases hl
      have hnd : ((lookupA st.document_to_hashes n).getD []).Nodup := by
        cases ho : lookupA st.document_to_hashes n with
        | none => simp
        | some hs0 => simpa using hi.vals_nodup _ _ ho
      exact setAdd_nodup _ _ hnd
    · rw [if_neg hd] at hl
      exact hi.vals_nodup _ _ hl
  · intro d hs hl
    simp only [] at hl
    rw [lookupA_setInsert] at hl
    by_cases hd : d = n
    · rw [if_pos hd] at hl
      cases hl
      exact setAdd_ne_nil _ _
    · rw [if_neg hd] at hl
      exact hi.vals_ne _ _ hl
  · intro h refs hl r hr
    simp only [] at hl ⊢
    rw [lookupA_appendEntry] at hl
    by_cases hh : h = c.content_hash
    · subst hh
      rw [if_pos rfl] at hl
      cases hl
      rw [List.mem_append] at hr
      rcases hr with hro | hrn
      · rcases mem_getD_nil _ _ hro with ⟨refs0, ho, hro2⟩
        exact setInsert_preserves_owner _ _ _ _ _ (hi.owner _ _ ho r hro2)
      · rw [List.mem_singleton] at hrn
        subst hrn
        show ∃ hs, lookupA (setInsert st.document_to_hashes n c.content_hash) n
          = some hs ∧ c.content_hash ∈ hs
        rw [lookupA_setInsert, if_pos rfl]
        exact ⟨_, rfl, (mem_setAdd _ _ _).mpr (Or.inr rfl)⟩
    · rw [if_neg hh] at hl
      exact setInsert_preserves_owner _ _ _ _ _ (hi.owner _ _ hl r hr)
  · intro d hs hl h hmem
    simp only [] at hl ⊢
    rw [lookupA_setInsert] at hl
    by_cases hd : d = n
    · subst hd
      rw [if_pos rfl] at hl
      cases hl
      rcases (mem_setAdd _ _ _).mp hmem with hold | hce
      · rcases mem_getD_nil _ _ hold with ⟨hs0, ho, hold2⟩
        exact appendEntry_preserves_witness _ _ _ _ _ (hi.bidir _ _ ho h hold2)
      · subst hce
        rw [lookupA_appendEntry, if_pos rfl]
        exact ⟨_, rfl, mkChunkRef d c, List.mem_append_right _ (by simp), rfl⟩
    · rw [if_neg hd] at hl
      exact appendEntry_preserves_witness _ _ _ _ _ (hi.bidir _ _ hl h hmem)

theorem addChunkStep_inv (document_name : String) (st : EMState) (c : Chunk)
    (hi : IndexInv st) : IndexInv (addChunkStep document_name st c) := by
  unfold addChunkStep
  by_cases hch : c.content_hash = ""
  · rwa [if_pos hch]
  · rw [if_neg hch]
    have hinv1 := pairUpdate_inv st document_name c hi
    obtain ⟨e1, e2, _⟩ := addSentences_h2d document_name c
      { st with
        hash_to_documents :=
          appendEntry st.hash_to_documents c.content_hash (mkChunkRef document_name c)
        document_to_hashes := setInsert st.document_to_hashes document_name c.content_hash }
    constructor
    · rw [e1]; exact hinv1.h2d_nodup
    · rw [e2]; exact hinv1.d2h_nodup
    · intro d hs hl; rw [e2] at hl; exact hinv1.vals_nodup _ _ hl
    · intro d hs hl; rw [e2] at hl; exact hinv1.vals_ne _ _ hl
    · intro h refs hl r hr
      rw [e1] at hl
      rcases hinv1.owner _ _ hl r hr with ⟨hs, hls, hmem⟩
      exact ⟨hs, by rw [e2]; exact hls, hmem⟩
    · intro d hs hl h hmem
      rw [e2] at hl
      rcases hinv1.bidir _ _ hl h hmem with ⟨refs, hlr, hrr⟩
      exact ⟨refs, by rw [e1]; exact hlr, hrr⟩

theorem addDocumentChunks_inv (s : EMState) (document_name : String)
    (chunks : List Chunk) (hi : IndexInv s) :
    IndexInv (addDocumentChunks s document_name chunks) := by
  unfold addDocumentChunks
  apply indexInv_disk
  induction chunks generalizing s with
  | nil => exact hi
  | cons c rest ih =>
    simp only [List.foldl_cons]
    exact ih _ (addChunkStep_inv document_name s c hi)

/-- Effect of one removal iteration on the reference list of one hash. -/
def stripRefs (document_name : String) (o : Option (List ChunkRef)) :
    Option (List ChunkRef) :=
  match o with
  | none => none
  | some refs =>
    let refs' := refs.filter (fun r => !(r.document_name = document_name))
    if refs'.isEmpty then none else some refs'

theorem removeStep_lookup (name : String) (c0 : Nat)
    (m : List (String × List ChunkRef)) (h h' : String)
    (hnd : (m.map Prod.fst).Nodup) :
    lookupA (removeStep name (c0, m) h).2 h' =
      if h' = h then stripRefs name (lookupA m h) else lookupA m h' := by
  unfold removeStep
  cases hm : lookupA m h with
  | none =>
    simp only [stripRefs]
    by_cases hh : h' = h
    · rw [if_pos hh, hh]
      exact hm
    · rw [if_neg hh]
  | some refs =>
    simp only [stripRefs]
    by_cases he : (refs.filter (fun r => !(r.document_name = name))).isEmpty
    · simp only [if_pos he]
      rw [lookupA_eraseKey _ _ _ hnd]
    · simp only [if_neg he]
      rw [lookupA_setValue]
      by_cases hh : h' = h
      · rw [if_pos hh, if_pos hh, hm]
        rfl
      · rw [if_neg hh, if_neg hh]

theorem removeStep_nodup (name : String) (acc : Nat × List (String × List ChunkRef))
    (h : String) (hnd : (acc.2.map Prod.fst).Nodup) :
    (((removeStep name acc h).2).map Prod.fst).Nodup := by
  unfold removeStep
  cases lookupA acc.2 h with
  | none => exact hnd
  | some refs =>
    by_cases he : (refs.filter (fun r => !(r.document_name = name))).isEmpty
    · simp only [if_pos he]
      exact nodup_keys_eraseKey _ _ hnd
    · simp only [if_neg he]
      exact nodup_keys_setValue _ _ _ hnd

theorem removeFold_nodup (name : String) (hs : List String) :
    ∀ (acc : Nat × List (String × List ChunkRef)), (acc.2.map Prod.fst).Nodup →
    (((hs.foldl (removeStep name) acc).2).map Prod.fst).Nodup := by
  induction hs with
  | nil => intro acc hnd; exact hnd
  | cons h rest ih =>
    intro acc hnd
    rw [List.foldl_cons]
    exact ih _ (removeStep_nodup name acc h hnd)

theorem removeFold_lookup (name : String) (hs : List String) :
    ∀ (c0 : Nat) (m : List (String × List ChunkRef)),
    (m.map Prod.fst).Nodup → hs.Nodup → ∀ h',
    lookupA ((hs.foldl (removeStep name) (c0, m)).2) h' =
      if h' ∈ hs then stripRefs name (lookupA m h') else lookupA m h' := by
  induction hs with
  | nil =>
    intro c0 m _ _ h'
    simp
  | cons h rest ih =>
    intro c0 m hnd hnodup h'
    rw [List.nodup_cons] at hnodup
    rw [List.foldl_cons]
    have hnd1 : (((removeStep name (c0, m) h).2).map Prod.fst).Nodup :=
      removeStep_nodup name (c0, m) h hnd
    have ihh : lookupA ((rest.foldl (removeStep name) (removeStep name (c0, m) h)).2) h' =
        if h' ∈ rest then stripRefs name (lookupA (removeStep name (c0, m) h).2 h')
        else lookupA (removeStep name (c0, m) h).2 h' :=
      ih (removeStep name (c0, m) h).1 (removeStep name (c0, m) h).2 hnd1 hnodup.2 h'
    rw [ihh]
    by_cases hmem : h' ∈ rest
    · have hne : ¬ h' = h := fun he => hnodup.1 (he ▸ hmem)
      rw [if_pos hmem, removeStep_lookup name c0 m h h' hnd, if_neg hne,
        if_pos (List.mem_cons.mpr (Or.inr hmem))]
    · rw [if_neg hmem, removeStep_lookup name c0 m h h' hnd]
      by_cases hh : h' = h
      · rw [if_pos hh, if_pos (List.mem_cons.mpr (Or.inl hh)), hh]
      · rw [if_neg hh, if_neg (by simp [hh, hmem])]

theorem removeDocument_inv (s : EMState) (name : String) (hi : IndexInv s) :
    IndexInv (removeDocument s name).2 := by
  unfold removeDocument
  cases hl : lookupA s.document_to_hashes name with
  | none => exact hi
  | some hsD =>
    simp only []
    have hnodupD : hsD.Nodup := hi.vals_nodup _ _ hl
    have hpt := removeFold_lookup name hsD 0 s.hash_to_documents hi.h2d_nodup hnodupD
    constructor
    · exact removeFold_nodup name hsD _ hi.h2d_nodup
    · exact nodup_keys_eraseKey _ _ hi.d2h_nodup
    · intro d hs hld
      simp only [] at hld
      rw [lookupA_eraseKey _ _ _ hi.d2h_nodup] at hld
      by_cases hd : d = name
      · rw [if_pos hd] at hld; cases hld
      · rw [if_neg hd] at hld
        exact hi.vals_nodup _ _ hld
    · intro d hs hld
      simp only [] at hld
      rw [lookupA_eraseKey _ _ _ hi.d2h_nodup] at hld
      by_cases hd : d = name
      · rw [if_pos hd] at hld; cases hld
      · rw [if_neg hd] at hld
        exact hi.vals_ne _ _ hld
    · intro h refs hlh r hr
      simp only [] at hlh ⊢
      rw [hpt h] at hlh
      by_cases hmem : h ∈ hsD
      · rw [if_pos hmem] at hlh
        unfold stripRefs at hlh
        cases ho : lookupA s.hash_to_documents h with
        | none => rw [ho] at hlh; cases hlh
        | some refs0 =>
          rw [ho] at hlh
          simp only [] at hlh
          by_cases he : (refs0.filter (fun r => !(r.document_name = name))).isEmpty
          · rw [if_pos he] at hlh; cases hlh
          · rw [if_neg he] at hlh
            cases hlh
            have hrf := List.mem_filter.mp hr
            have hrn : ¬ r.document_name = name := by
              have := hrf.2
              simpa using this
            rcases hi.owner _ _ ho r hrf.1 with ⟨hs2, hls2, hmem2⟩
            refine ⟨hs2, ?_, hmem2⟩
            rw [lookupA_eraseKey _ _ _ hi.d2h_nodup, if_neg hrn]
            exact hls2
      · rw [if_neg hmem] at hlh
        rcases hi.owner _ _ hlh r hr with ⟨hs2, hls2, hmem2⟩
        have hrn : ¬ r.document_name = name := by
          intro he
          rw [he, hl] at hls2
          cases hls2
          exact hmem hmem2
        refine ⟨hs2, ?_, hmem2⟩
        rw [lookupA_eraseKey _ _ _ hi.d2h_nodup, if_neg hrn]
        exact hls2
    · intro d hs hld h hmem
      simp only [] at hld ⊢
      rw [lookupA_eraseKey _ _ _ hi.d2h_nodup] at hld
      by_cases hd : d = name
      · rw [if_pos hd] at hld; cases hld
      · rw [if_neg hd] at hld
        rcases hi.bidir _ _ hld h hmem with ⟨refs, hlr, r, hrr, hnm⟩
        rw [hpt h]
        by_cases hmem2 : h ∈ hsD
        · rw [if_pos hmem2]
          unfold stripRefs
          rw [hlr]
          simp only []
          have hrmem : r ∈ refs.filter (fun r => !(r.document_name = name)) := by
            rw [List.mem_filter]
            exact ⟨hrr, by simp [hnm, hd]⟩
          have hne : ¬ (refs.filter (fun r => !(r.document_name = name))).isEmpty := by
            intro he
            rw [List.isEmpty_iff] at he
            rw [he] at hrmem
            cases hrmem
          rw [if_neg hne]
          exact ⟨_, rfl, r, hrmem, hnm⟩
        · rw [if_neg hmem2]
          exact ⟨refs, hlr, r, hrr, hnm⟩

/-- Every reachable service state satisfies the index invariant. -/
theorem reachable_inv (s : EMState) (hr : Reachable s) : IndexInv s := by
  induction hr with
  | empty => exact indexInv_empty
  | add s name chunks _ ih => exact addDocumentChunks_inv s name chunks ih
  | remove s name _ ih => exact removeDocument_inv s name ih

/-! ## Concrete example states used by witnesses and counterexamples -/

/-- A small concrete chunk metadata record. -/
def exMeta (i : Nat) : ChunkMetadata :=
  { chunk_index := .ofNat i
    section_level := 1
    section_number := "1"
    section_title := "Purpose"
    parent_section := "none"
    start_char := 0
    end_char := 10
    char_count := 10
    word_count := 2
    chunk_type := "section_based"
    filename := "doc.txt"
    content_hash := "x"
    hash_type := "content"
    sentence_count := 0
    sub_chunk_index := none }

/-- A small concrete chunk with a given content hash and sentence hashes. -/
def exChunk (h : String) (i : Nat) (sh : List String) : Chunk :=
  { text := "body text!"
    content_hash := h
    sentence_hashes := some (sh.enum.map (fun p =>
      { sentence_index := p.1
        sentence_text := "body text"
        sentence_hash := p.2
        word_count := 2 }))
    metadata := exMeta i }

def exState1 : EMState := addDocumentChunks emptyState "docA" [exChunk "h1" 0 ["s1"]]

def exState2 : EMState :=
  addDocumentChunks exState1 "docB" [exChunk "h1" 0 [], exChunk "h2" 1 []]

theorem exState1_reachable : Reachable exState1 :=
  Reachable.add emptyState "docA" [exChunk "h1" 0 ["s1"]] Reachable.empty

theorem exState2_reachable : Reachable exState2 :=
  Reachable.add exState1 "docB" [exChunk "h1" 0 [], exChunk "h2" 1 []]
    exState1_reachable

/-! ## Claim C2 -/

/-- Claim C2: starting from the empty index, after any sequence of
`add_document_chunks` and `remove_document` calls, every document present
in `document_to_hashes` has each of its hashes as a key of
`hash_to_documents` whose list holds at least one `ChunkRef` with that
document's name. -/
theorem claim2_bidirectional_consistency (s : EMState) (hr : Reachable s) :
    bidirectionallyConsistent s :=
  (reachable_inv s hr).bidir

/-- Witness for C2 at a concrete two-document reachable state. -/
theorem claim2_witness : bidirectionallyConsistent exState2 :=
  claim2_bidirectional_consistency exState2 exState2_reachable

/-! ## Claim C1 -/

/-- Claim C1 (amended): for a document `D` present in the index,
`remove_document(D)` purges `D` from the section-level maps: afterwards
`find_exact_matches(D)` returns the not-found error, no `ChunkRef` with
`document_name = D` remains in `hash_to_documents`, and `D` is gone from
`document_to_hashes`.  (The sentence-level maps are not touched by
`remove_document` — see the counterexample.) -/
theorem claim1_remove_purges_section_index (s : EMState) (hr : Reachable s)
    (D : String) (hD : (lookupA s.document_to_hashes D).isSome) :
    findExactMatches (removeDocument s D).2 D = .err "Document not found" [] ∧
    (∀ h refs, lookupA (removeDocument s D).2.hash_to_documents h = some refs →
      ∀ r ∈ refs, r.document_name ≠ D) ∧
    lookupA (removeDocument s D).2.document_to_hashes D = none := by
  have hi := reachable_inv s hr
  rcases Option.isSome_iff_exists.mp hD with ⟨hsD, hl⟩
  have hnodupD : hsD.Nodup := hi.vals_nodup _ _ hl
  have hrem : (removeDocument s D).2 =
      { s with
        hash_to_documents := (hsD.foldl (removeStep D) (0, s.hash_to_documents)).2
        document_to_hashes := eraseKey s.document_to_hashes D } := by
    unfold removeDocument
    rw [hl]
  have hnone : lookupA (eraseKey s.document_to_hashes D) D = none := by
    rw [lookupA_eraseKey _ _ _ hi.d2h_nodup, if_pos rfl]
  have hpt := removeFold_lookup D hsD 0 s.hash_to_documents hi.h2d_nodup hnodupD
  refine ⟨?_, ?_, ?_⟩
  · rw [hrem]
    unfold findExactMatches
    simp only [hnone]
  · intro h refs hlh r hr2
    rw [hrem] at hlh
    simp only [] at hlh
    rw [hpt h] at hlh
    by_cases hmem : h ∈ hsD
    · rw [if_pos hmem] at hlh
      unfold stripRefs at hlh
      cases ho : lookupA s.hash_to_documents h with
      | none => rw [ho] at hlh; cases hlh
      | some refs0 =>
        rw [ho] at hlh
        simp only [] at hlh
        by_cases he : (refs0.filter (fun r => !(r.document_name = D))).isEmpty
        · rw [if_pos he] at hlh; cases hlh
        · rw [if_neg he] at hlh
          cases hlh
          have hrf := List.mem_filter.mp hr2
          simpa using hrf.2
    · rw [if_neg hmem] at hlh
      intro he
      rcases hi.owner _ _ hlh r hr2 with ⟨hs2, hls2, hmem2⟩
      rw [he, hl] at hls2
      cases hls2
      exact hmem hmem2
  · rw [hrem]
    exact hnone

/-- Witness for C1: the theorem applied at a concrete indexed document. -/
theorem claim1_witness :
    findExactMatches (removeDocument exState1 "docA").2 "docA"
      = .err "Document not found" [] ∧
    (∀ h refs,
      lookupA (removeDocument exState1 "docA").2.hash_to_documents h = some refs →
      ∀ r ∈ refs, r.document_name ≠ "docA") ∧
    lookupA (removeDocument exState1 "docA").2.document_to_hashes "docA" = none :=
  claim1_remove_purges_section_index exState1 exState1_reachable "docA" (by decide)

/-- Counterexample for C1 as stated: after `remove_document("docA")` the
sentence-level maps still hold entries for `docA`, so the removal is not a
purge of all four mappings. -/
theorem claim1_counterexample :
    lookupA (removeDocument exState1 "docA").2.document_to_hashes "docA" = none ∧
    lookupA (removeDocument exState1 "docA").2.document_to_sentence_hashes "docA"
      = some ["s1"] ∧
    ((lookupA (removeDocument exState1 "docA").2.sentence_hash_to_documents "s1").getD
      []).length = 1 := by
  decide

/-! ## Claim C9 -/

/-- Claim C9 (amended): `add_document_chunks` serializes the four mappings
to the persistence file after mutating them; `remove_document` performs no
save (see the counterexample), so only additions persist immediately. -/
theorem claim9_add_persists (s : EMState) (document_name : String)
    (chunks : List Chunk) :
    (addDocumentChunks s document_name chunks).disk
      = some (mkSnapshot (addDocumentChunks s document_name chunks)) := rfl

/-- Counterexample for C9 as stated: after `remove_document` the on-disk
state differs from the in-memory state (no save is performed). -/
theorem claim9_counterexample :
    (removeDocument exState1 "docA").2.disk
      ≠ some (mkSnapshot (removeDocument exState1 "docA").2) := by
  decide

/-! ## Claim C5 -/

theorem find_fold_mem (s : EMState) (D : String) :
    ∀ (hs : List String) (acc : List MatchInfo) (m : MatchInfo),
    m ∈ hs.foldl
      (fun acc contentHash =>
        let hashDocuments := (lookupA s.hash_to_documents contentHash).getD []
        if hashDocuments.length > 1 then
          let otherDocs := hashDocuments.filter
            (fun d => !(d.document_name = D))
          if otherDocs.isEmpty then acc
          else acc ++ [{ content_hash := contentHash
                         matching_documents := otherDocs
                         total_matches := hashDocuments.length
                         section_info := hashDocuments.find?
                           (fun d => d.document_name = D) }]
        else acc) acc →
    m ∈ acc ∨
      (m.content_hash ∈ hs ∧
       m.matching_documents =
         ((lookupA s.hash_to_documents m.content_hash).getD []).filter
           (fun d => !(d.document_name = D)) ∧
       ¬ m.matching_documents.isEmpty = true) := by
  intro hs
  induction hs with
  | nil =>
    intro acc m hm
    exact Or.inl hm
  | cons h rest ih =>
    intro acc m hm
    rw [List.foldl_cons] at hm
    rcases ih _ m hm with hacc | hright
    · simp only [] at hacc
      by_cases h1 : ((lookupA s.hash_to_documents h).getD []).length > 1
      · rw [if_pos h1] at hacc
        by_cases h2 : (((lookupA s.hash_to_documents h).getD []).filter
            (fun d => !(d.document_name = D))).isEmpty
        · rw [if_pos h2] at hacc
          exact Or.inl hacc
        · rw [if_neg h2] at hacc
          rcases List.mem_append.mp hacc with hl | hr
          · exact Or.inl hl
          · rw [List.mem_singleton] at hr
            subst hr
            exact Or.inr ⟨List.mem_cons_self _ _, rfl, h2⟩
      · rw [if_neg h1] at hacc
        exact Or.inl hacc
    · exact Or.inr ⟨List.mem_cons.mpr (Or.inr hright.1), hright.2⟩

/-- Claim C5: `find_exact_matches` fails softly for an unknown document
with exactly the not-found payload; for a known document, every reported
match concerns a hash of the document that is shared with at least one
other document, and the querying document never appears among
`matching_documents`. -/
theorem claim5_find_exact_matches (s : EMState) (D : String) :
    (lookupA s.document_to_hashes D = none →
      findExactMatches s D = .err "Document not found" []) ∧
    (∀ doc tu em ms, findExactMatches s D = .ok doc tu em ms →
      ∀ m ∈ ms,
        m.content_hash ∈ (lookupA s.document_to_hashes D).getD [] ∧
        (∃ r ∈ (lookupA s.hash_to_documents m.content_hash).getD [],
          r.document_name ≠ D) ∧
        ∀ r ∈ m.matching_documents, r.document_name ≠ D) := by
  constructor
  · intro hnone
    unfold findExactMatches
    simp only [hnone]
  · intro doc tu em ms hok m hm
    unfold findExactMatches at hok
    cases hl : lookupA s.document_to_hashes D with
    | none => rw [hl] at hok; cases hok
    | some hsD =>
      rw [hl] at hok
      simp only [FindResult.ok.injEq] at hok
      rcases hok with ⟨_, _, _, hms⟩
      subst hms
      rcases find_fold_mem s D hsD [] m hm with hfalse | ⟨hmem, heq, hne⟩
      · cases hfalse
      · refine ⟨by exact hmem, ?_, ?_⟩
        · rcases List.isEmpty_eq_false_iff_exists_mem.mp (by simpa using hne)
            with ⟨r, hr⟩
          rw [heq] at hr
          have hrf := List.mem_filter.mp hr
          exact ⟨r, hrf.1, by simpa using hrf.2⟩
        · intro r hr
          rw [heq] at hr
          have hrf := List.mem_filter.mp hr
          simpa using hrf.2

/-- The single match reported by `find_exact_matches` on `exState2` for
`docB`. -/
def exMatchInfo : MatchInfo :=
  { content_hash := "h1"
    matching_documents := [mkChunkRef "docA" (exChunk "h1" 0 ["s1"])]
    total_matches := 2
    section_info := some (mkChunkRef "docB" (exChunk "h1" 0 [])) }

/-- Witness for C5: the error payload on an unknown document of a concrete
state, and the match facts at the concrete reported match of `exState2`. -/
theorem claim5_witness :
    findExactMatches emptyState "docX" = .err "Document not found" [] ∧
    (exMatchInfo.content_hash ∈ (lookupA exState2.document_to_hashes "docB").getD [] ∧
     (∃ r ∈ (lookupA exState2.hash_to_documents exMatchInfo.content_hash).getD [],
       r.document_name ≠ "docB") ∧
     ∀ r ∈ exMatchInfo.matching_documents, r.document_name ≠ "docB") :=
  ⟨(claim5_find_exact_matches emptyState "docX").1 rfl,
   (claim5_find_exact_matches exState2 "docB").2 "docB" 2 1 [exMatchInfo]
     (by decide) exMatchInfo (List.mem_singleton_self _)⟩

/-! ## Claim C3 -/

theorem filter_mem_toFinset (ha hb : List String) :
    (ha.filter (fun h => h ∈ hb)).toFinset = ha.toFinset ∩ hb.toFinset := by
  ext x
  simp [List.mem_filter]

theorem filter_mem_length (ha hb : List String) (hna : ha.Nodup) :
    (ha.filter (fun h => h ∈ hb)).length = (ha.toFinset ∩ hb.toFinset).card := by
  rw [← filter_mem_toFinset ha hb]
  exact (List.toFinset_card_of_nodup (hna.filter _)).symm

theorem score_eq (s : EMState) (a b : String) (ha hb : List String)
    (hA : lookupA s.document_to_hashes a = some ha)
    (hB : lookupA s.document_to_hashes b = some hb) :
    (compareDocumentsExact s a b).score =
      some (if ha.length + hb.length > 0 then
        ((ha.filter (fun h => h ∈ hb)).length * 2 : ℚ) /
          ((ha.length : ℚ) + (hb.length : ℚ))
      else 0) ∧
    (compareDocumentsExact s a b).commonSections =
      some (ha.filter (fun h => h ∈ hb)).length := by
  unfold compareDocumentsExact
  rw [hA, hB]
  exact ⟨rfl, rfl⟩

/-- Claim C3: for indexed documents `A` and `B`, `compare_documents_exact`
returns the Dice score `2·|hashes(A) ∩ hashes(B)| / (|hashes(A)| +
|hashes(B)|)`; the score and `common_sections` are symmetric in the
argument order; the score lies in `[0,1]`, equals `1` iff the two hash
sets are identical and non-empty, and equals `0` iff they are disjoint. -/
theorem claim3_compare_documents_dice (s : EMState) (hr : Reachable s)
    (a b : String) (ha hb : List String)
    (hA : lookupA s.document_to_hashes a = some ha)
    (hB : lookupA s.document_to_hashes b = some hb) :
    (compareDocumentsExact s a b).score =
      some ((2 * ((ha.toFinset ∩ hb.toFinset).card : ℚ)) /
        ((ha.toFinset.card : ℚ) + (hb.toFinset.card : ℚ))) ∧
    (compareDocumentsExact s a b).score = (compareDocumentsExact s b a).score ∧
    (compareDocumentsExact s a b).commonSections
      = (compareDocumentsExact s b a).commonSections ∧
    ∀ q, (compareDocumentsExact s a b).score = some q →
      0 ≤ q ∧ q ≤ 1 ∧
      (q = 1 ↔ ha.toFinset = hb.toFinset ∧ ha.toFinset.Nonempty) ∧
      (q = 0 ↔ ha.toFinset ∩ hb.toFinset = ∅) := by
  have hi := reachable_inv s hr
  have hna : ha.Nodup := hi.vals_nodup _ _ hA
  have hnb : hb.Nodup := hi.vals_nodup _ _ hB
  have hnea : ha ≠ [] := hi.vals_ne _ _ hA
  have hneb : hb ≠ [] := hi.vals_ne _ _ hB
  have hla : ha.toFinset.card = ha.length := List.toFinset_card_of_nodup hna
  have hlb : hb.toFinset.card = hb.length := List.toFinset_card_of_nodup hnb
  have hposa : 0 < ha.length := List.length_pos.mpr hnea
  have hposb : 0 < hb.length := List.length_pos.mpr hneb
  have hpos : ha.length + hb.length > 0 := by omega
  have hcab := filter_mem_length ha hb hna
  have hcba := filter_mem_length hb ha hnb
  have hccomm : (ha.toFinset ∩ hb.toFinset).card = (hb.toFinset ∩ ha.toFinset).card := by
    rw [Finset.inter_comm]
  obtain ⟨hsab, hcsab⟩ := score_eq s a b ha hb hA hB
  obtain ⟨hsba, hcsba⟩ := score_eq s b a hb ha hB hA
  have hmain : (compareDocumentsExact s a b).score =
      some ((2 * ((ha.toFinset ∩ hb.toFinset).card : ℚ)) /
        ((ha.toFinset.card : ℚ) + (hb.toFinset.card : ℚ))) := by
    rw [hsab, if_pos hpos, hcab, hla, hlb]
    congr 1
    ring
  refine ⟨hmain, ?_, ?_, ?_⟩
  · rw [hmain, hsba, if_pos (by omega), hcba, hla, hlb]
    congr 1
    rw [hccomm]
    ring
  · rw [hcsab, hcsba, hcab, hcba, hccomm]
  · intro q hq
    rw [hmain] at hq
    injection hq with hq
    subst hq
    set m := (ha.toFinset ∩ hb.toFinset).card with hm
    have hmla : m ≤ ha.toFinset.card :=
      Finset.card_le_card (Finset.inter_subset_left)
    have hmlb : m ≤ hb.toFinset.card :=
      Finset.card_le_card (Finset.inter_subset_right)
    have hdenpos : (0 : ℚ) < (ha.toFinset.card : ℚ) + (hb.toFinset.card : ℚ) := by
      have : 0 < ha.toFinset.card + hb.toFinset.card := by omega
      exact_mod_cast this
    have hdenne : ((ha.toFinset.card : ℚ) + (hb.toFinset.card : ℚ)) ≠ 0 :=
      ne_of_gt hdenpos
    refine ⟨?_, ?_, ?_, ?_⟩
    · apply div_nonneg _ (le_of_lt hdenpos)
      positivity
    · rw [div_le_one hdenpos]
      have : 2 * m ≤ ha.toFinset.card + hb.toFinset.card := by omega
      calc (2 * (m : ℚ)) = ((2 * m : ℕ) : ℚ) := by push_cast; ring
        _ ≤ ((ha.toFinset.card + hb.toFinset.card : ℕ) : ℚ) := by exact_mod_cast this
        _ = (ha.toFinset.card : ℚ) + (hb.toFinset.card : ℚ) := by push_cast; ring
    · rw [div_eq_one_iff_eq hdenne]
      constructor
      · intro he
        have hnat : 2 * m = ha.toFinset.card + hb.toFinset.card := by
          exact_mod_cast he
        have hea : m = ha.toFinset.card := by omega
        have heb : m = hb.toFinset.card := by omega
        have hAeq : ha.toFinset ∩ hb.toFinset = ha.toFinset :=
          Finset.eq_of_subset_of_card_le Finset.inter_subset_left (le_of_eq hea.symm)

        have hBeq : ha.toFinset ∩ hb.toFinset = hb.toFinset :=
          Finset.eq_of_subset_of_card_le Finset.inter_subset_right (le_of_eq heb.symm)
        refine ⟨by rw [← hAeq, hBeq], ?_⟩
        rw [← Finset.card_pos, hla]
        exact hposa
      · rintro ⟨heq, _⟩
        have hcards : m = hb.toFinset.card := by rw [hm, heq, Finset.inter_self]
        have hac : ha.toFinset.card = hb.toFinset.card := by rw [heq]
        rw [hcards, hac]
        ring
    · rw [div_eq_zero_iff]
      constructor
      · rintro (hnum | hden)
        · have : m = 0 := by exact_mod_cast (by simpa using hnum : (m : ℚ) = 0)
          exact Finset.card_eq_zero.mp this
        · exact absurd hden hdenne
      · intro hempty
        left
        rw [hm, hempty]
        simp

/-- Witness for C3 at the concrete state `exState2`
(`docA` owns `["h1"]`, `docB` owns `["h1","h2"]`). -/
theorem claim3_witness :
    (compareDocumentsExact exState2 "docA" "docB").score =
      some ((2 * (((["h1"] : List String).toFinset ∩
        (["h1", "h2"] : List String).toFinset).card : ℚ)) /
        (((["h1"] : List String).toFinset.card : ℚ) +
         ((["h1", "h2"] : List String).toFinset.card : ℚ))) ∧
    (compareDocumentsExact exState2 "docA" "docB").score
      = (compareDocumentsExact exState2 "docB" "docA").score ∧
    (compareDocumentsExact exState2 "docA" "docB").commonSections
      = (compareDocumentsExact exState2 "docB" "docA").commonSections ∧
    ∀ q, (compareDocumentsExact exState2 "docA" "docB").score = some q →
      0 ≤ q ∧ q ≤ 1 ∧
      (q = 1 ↔ (["h1"] : List String).toFinset = (["h1", "h2"] : List String).toFinset ∧
        (["h1"] : List String).toFinset.Nonempty) ∧
      (q = 0 ↔ (["h1"] : List String).toFinset ∩ (["h1", "h2"] : List String).toFinset = ∅) :=
  claim3_compare_documents_dice exState2 exState2_reachable "docA" "docB"
    ["h1"] ["h1", "h2"] (by decide) (by decide)

/-! ## Claim C4: normalization and hashing -/

theorem isPyWs_space : isPyWs ' ' = true := by decide

theorem pyLowerChar_eq_of_upper (c : Char) (h : 65 ≤ c.toNat ∧ c.toNat ≤ 90) :
    pyLowerChar c = Char.ofNatAux (c.toNat + 32) (Or.inl (by omega)) := by
  unfold pyLowerChar
  rw [dif_pos h]

theorem pyLowerChar_eq_of_not_upper (c : Char)
    (h : ¬ (65 ≤ c.toNat ∧ c.toNat ≤ 90)) : pyLowerChar c = c := by
  unfold pyLowerChar
  rw [dif_neg h]

theorem isPyWs_eq_false_of_range (c : Char) (h : 65 ≤ c.toNat ∧ c.toNat ≤ 122) :
    isPyWs c = false := by
  unfold isPyWs
  simp only [Bool.or_eq_false_iff, decide_eq_false_iff_not]
  omega

theorem pyLowerChar_ws (c : Char) : isPyWs (pyLowerChar c) = isPyWs c := by
  by_cases h : 65 ≤ c.toNat ∧ c.toNat ≤ 90
  · rw [pyLowerChar_eq_of_upper c h]
    have ht : (Char.ofNatAux (c.toNat + 32) (Or.inl (by omega))).toNat
        = c.toNat + 32 := rfl
    rw [isPyWs_eq_false_of_range _ (by rw [ht]; omega),
      isPyWs_eq_false_of_range _ (by omega)]
  · rw [pyLowerChar_eq_of_not_upper c h]

theorem pyLowerChar_idem (c : Char) :
    pyLowerChar (pyLowerChar c) = pyLowerChar c := by
  by_cases h : 65 ≤ c.toNat ∧ c.toNat ≤ 90
  · rw [pyLowerChar_eq_of_upper c h]
    apply pyLowerChar_eq_of_not_upper
    have ht : (Char.ofNatAux (c.toNat + 32) (Or.inl (by omega))).toNat
        = c.toNat + 32 := rfl
    rw [ht]
    omega
  · rw [pyLowerChar_eq_of_not_upper c h, pyLowerChar_eq_of_not_upper c h]

theorem collapse_map_lower (l : List Char) :
    ∀ b, collapseWsGo b (l.map pyLowerChar) = (collapseWsGo b l).map pyLowerChar := by
  induction l with
  | nil => intro b; rfl
  | cons c r ih =>
    intro b
    by_cases hc : isPyWs c
    · have hlc : isPyWs (pyLowerChar c) = true := by rw [pyLowerChar_ws]; exact hc
      cases b with
      | true => simp [collapseWsGo, hc, hlc, ih]
      | false =>
        simp only [List.map_cons, collapseWsGo, hc, hlc, if_pos, ih true]
        have hsp : pyLowerChar ' ' = ' ' := by decide
        simp [hsp]
    · have hlc : isPyWs (pyLowerChar c) = false := by rw [pyLowerChar_ws]; exact
        (by simpa using hc)
      simp [collapseWsGo, hc, hlc, ih false]

theorem collapse_idem_all (l : List Char) :
    collapseWsGo false (collapseWsGo false l) = collapseWsGo false l ∧
    collapseWsGo false (collapseWsGo true l) = collapseWsGo true l ∧
    collapseWsGo true (collapseWsGo true l) = collapseWsGo true l := by
  induction l with
  | nil => exact ⟨rfl, rfl, rfl⟩
  | cons c r ih =>
    obtain ⟨ih1, ih2, ih3⟩ := ih
    by_cases hc : isPyWs c
    · refine ⟨?_, ?_, ?_⟩
      · simp [collapseWsGo, hc, isPyWs_space, ih3]
      · simp [collapseWsGo, hc, ih2]
      · simp [collapseWsGo, hc, ih3]
    · refine ⟨?_, ?_, ?_⟩
      · simp [collapseWsGo, hc, ih1]
      · simp [collapseWsGo, hc, ih1]
      · simp [collapseWsGo, hc, ih1]

/-- No leading whitespace. -/
def headNonWs (l : List Char) : Prop :=
  ∀ c, l.head? = some c → isPyWs c = false

/-- No trailing whitespace. -/
def lastNonWs (l : List Char) : Prop :=
  ∀ c, l.getLast? = some c → isPyWs c = false

theorem dropWhile_headNonWs (l : List Char) : headNonWs (l.dropWhile isPyWs) := by
  induction l with
  | nil => intro c hc; cases hc
  | cons d r ih =>
    intro c hc
    rw [List.dropWhile_cons] at hc
    by_cases hd : isPyWs d
    · rw [if_pos (by simpa using hd)] at hc
      exact ih c hc
    · rw [if_neg (by simpa using hd)] at hc
      cases hc
      simpa using hd

theorem dropWhile_eq_of_headNonWs (l : List Char) (h : headNonWs l) :
    l.dropWhile isPyWs = l := by
  cases l with
  | nil => rfl
  | cons c r =>
    rw [List.dropWhile_cons, if_neg]
    simp [h c rfl]

theorem pyStrip_ends (l : List Char) :
    headNonWs (pyStrip l) ∧ lastNonWs (pyStrip l) := by
  unfold pyStrip
  constructor
  · intro c hc
    rw [List.head?_reverse] at hc
    obtain ⟨t, ht⟩ :=
      List.dropWhile_suffix (l := (l.dropWhile isPyWs).reverse) isPyWs
    by_cases hX : (l.dropWhile isPyWs).reverse.dropWhile isPyWs = []
    · rw [hX] at hc
      cases hc
    · have hc2 : (l.dropWhile isPyWs).reverse.getLast? = some c := by
        rw [← ht, List.getLast?_append_of_ne_nil _ hX]
        exact hc
      rw [List.getLast?_reverse] at hc2
      exact dropWhile_headNonWs l c hc2
  · intro c hc
    rw [List.getLast?_reverse] at hc
    exact dropWhile_headNonWs _ c hc

theorem headNonWs_map_lower (l : List Char) (h : headNonWs l) :
    headNonWs (l.map pyLowerChar) := by
  intro c hc
  rw [List.head?_map] at hc
  cases hl : l.head? with
  | none => rw [hl] at hc; cases hc
  | some d =>
    rw [hl] at hc
    cases hc
    rw [pyLowerChar_ws]
    exact h d hl

theorem lastNonWs_map_lower (l : List Char) (h : lastNonWs l) :
    lastNonWs (l.map pyLowerChar) := by
  intro c hc
  rw [← List.head?_reverse, ← List.map_reverse, List.head?_map] at hc
  cases hl : l.reverse.head? with
  | none => rw [hl] at hc; cases hc
  | some d =>
    rw [hl] at hc
    cases hc
    rw [pyLowerChar_ws]
    exact h d (by rw [← List.head?_reverse]; exact hl)

theorem collapse_headNonWs (l : List Char) (h : headNonWs l) :
    headNonWs (collapseWsGo false l) := by
  cases l with
  | nil => intro c hc; cases hc
  | cons c r =>
    have hc : isPyWs c = false := h c rfl
    have he : collapseWsGo false (c :: r) = c :: collapseWsGo false r := by
      simp [collapseWsGo, hc]
    intro d hd
    rw [he] at hd
    simp only [List.head?_cons, Option.some.injEq] at hd
    subst hd
    exact hc

theorem collapse_true_nil (l : List Char) (h : collapseWsGo true l = []) :
    ∀ c ∈ l, isPyWs c = true := by
  induction l with
  | nil => intro c hc; cases hc
  | cons d r ih =>
    intro c hc
    by_cases hd : isPyWs d
    · have he : collapseWsGo true (d :: r) = collapseWsGo true r := by
        simp [collapseWsGo, hd]
      rw [he] at h
      rcases List.mem_cons.mp hc with rfl | hcr
      · exact hd
      · exact ih h c hcr
    · have he : collapseWsGo true (d :: r) = d :: collapseWsGo false r := by
        simp [collapseWsGo, hd]
      rw [he] at h
      cases h

theorem collapse_false_ne_nil (l : List Char) (h : l ≠ []) :
    collapseWsGo false l ≠ [] := by
  cases l with
  | nil => exact absurd rfl h
  | cons c r =>
    by_cases hc : isPyWs c
    · simp [collapseWsGo, hc]
    · simp [collapseWsGo, hc]

theorem getLast?_cons_of_ne_nil {α : Type} (c : α) (l : List α) (h : l ≠ []) :
    (c :: l).getLast? = l.getLast? := by
  cases l with
  | nil => exact absurd rfl h
  | cons d r => exact List.getLast?_cons_cons

theorem collapse_lastNonWs (l : List Char) :
    ∀ b, lastNonWs l → lastNonWs (collapseWsGo b l) := by
  induction l with
  | nil =>
    intro b _ c hc
    cases hc
  | cons c r ih =>
    intro b hy
    cases r with
    | nil =>
      have hc : isPyWs c = false := hy c rfl
      have he : collapseWsGo b [c] = [c] := by
        cases b <;> simp [collapseWsGo, hc]
      intro d hd
      rw [he] at hd
      simp only [List.getLast?_singleton, Option.some.injEq] at hd
      subst hd
      exact hc
    | cons e r2 =>
      have hy2 : lastNonWs (e :: r2) := by
        intro g hg
        exact hy g (by rw [List.getLast?_cons_cons]; exact hg)
      have hYne : collapseWsGo true (e :: r2) ≠ [] := by
        intro hnil
        have hall := collapse_true_nil _ hnil
        rcases hg : (e :: r2).getLast? with _ | g
        · simp at hg
        · have hgm : g ∈ (e :: r2) := by
            rcases List.mem_getLast?_eq_getLast (l := e :: r2) (x := g)
              (by rw [hg]; rfl) with ⟨hh, hgg⟩
            rw [hgg]
            exact List.getLast_mem hh
          have hgw := hy2 g hg
          rw [hall g hgm] at hgw
          cases hgw
      by_cases hc : isPyWs c
      · cases b with
        | true =>
          have he : collapseWsGo true (c :: e :: r2) = collapseWsGo true (e :: r2) := by
            simp [collapseWsGo, hc]
          rw [he]
          exact ih true hy2
        | false =>
          have he : collapseWsGo false (c :: e :: r2)
              = ' ' :: collapseWsGo true (e :: r2) := by
            simp [collapseWsGo, hc]
          intro d hd
          rw [he, getLast?_cons_of_ne_nil _ _ hYne] at hd
          exact ih true hy2 d hd
      · have hFne : collapseWsGo false (e :: r2) ≠ [] :=
          collapse_false_ne_nil _ (by simp)
        have he : collapseWsGo b (c :: e :: r2) = c :: collapseWsGo false (e :: r2) := by
          cases b <;> simp [collapseWsGo, hc]
        intro d hd
        rw [he, getLast?_cons_of_ne_nil _ _ hFne] at hd
        exact ih false hy2 d hd

theorem pyStrip_eq_of_ends (l : List Char) (h1 : headNonWs l) (h2 : lastNonWs l) :
    pyStrip l = l := by
  unfold pyStrip
  rw [dropWhile_eq_of_headNonWs l h1]
  rw [dropWhile_eq_of_headNonWs l.reverse (by
    intro c hc
    rw [List.head?_reverse] at hc
    exact h2 c hc)]
  exact List.reverse_reverse l

theorem pyNormalize_idem (l : List Char) :
    pyNormalize (pyNormalize l) = pyNormalize l := by
  have hx1 : headNonWs ((pyStrip l).map pyLowerChar) :=
    headNonWs_map_lower _ (pyStrip_ends l).1
  have hx2 : lastNonWs ((pyStrip l).map pyLowerChar) :=
    lastNonWs_map_lower _ (pyStrip_ends l).2
  have hn1 : headNonWs (pyNormalize l) := collapse_headNonWs _ hx1
  have hn2 : lastNonWs (pyNormalize l) := collapse_lastNonWs _ false hx2
  have hstrip : pyStrip (pyNormalize l) = pyNormalize l :=
    pyStrip_eq_of_ends _ hn1 hn2
  have hlow : (pyNormalize l).map pyLowerChar = pyNormalize l := by
    show (collapseWsGo false ((pyStrip l).map pyLowerChar)).map pyLowerChar = _
    rw [← collapse_map_lower, List.map_map]
    have : (pyStrip l).map (pyLowerChar ∘ pyLowerChar) = (pyStrip l).map pyLowerChar := by
      apply List.map_congr_left
      intro c _
      exact pyLowerChar_idem c
    rw [this]
    rfl
  show collapseWs ((pyStrip (pyNormalize l)).map pyLowerChar) = pyNormalize l
  rw [hstrip, hlow]
  exact (collapse_idem_all ((pyStrip l).map pyLowerChar)).1

/-- The sub-chunk built by `_subdivide_large_section` for paragraph `p.2`
at position `p.1`. -/
def mkSubChunk (chunk : Chunk) (p : Nat × List Char) : Chunk :=
  { text := ⟨p.2⟩
    content_hash := generateContentHash ⟨p.2⟩
    sentence_hashes := none
    metadata := { chunk.metadata with
      chunk_index := .ofStr (chunk.metadata.chunk_index.render ++ "." ++ toString p.1)
      sub_chunk_index := some p.1
      char_count := p.2.length
      word_count := pyWordCount p.2
      chunk_type := "section_subdivision"
      content_hash := generateContentHash ⟨p.2⟩
      hash_type := "content" } }

/-- Replacing the filename recorded in a chunk's metadata. -/
def renameChunk (f : String) (c : Chunk) : Chunk :=
  { c with metadata := { c.metadata with filename := f } }

/-- The sub-chunk list computed inside `_subdivide_large_section`. -/
def subChunksOf (c : Chunk) : List Chunk :=
  ((if (paraSplit c.text.data).length ≤ 1 then sentenceFallback c.text.data
    else paraSplit c.text.data)).enum.filterMap (fun p =>
      if (pyStrip p.2).length < 30 then none else some (mkSubChunk c p))

theorem subdivideLargeSection_eq (c : Chunk) :
    subdivideLargeSection c
      = if (subChunksOf c).isEmpty then [c] else subChunksOf c := rfl

theorem subChunksOf_rename (f : String) (c : Chunk) :
    subChunksOf (renameChunk f c) = (subChunksOf c).map (renameChunk f) := by
  unfold subChunksOf
  dsimp only [renameChunk]
  rw [List.map_filterMap]
  congr 1
  funext p
  by_cases h : (pyStrip p.2).length < 30
  · rw [if_pos h, if_pos h]
    rfl
  · rw [if_neg h, if_neg h]
    rfl

theorem subdivide_rename (f : String) (c : Chunk) :
    subdivideLargeSection (renameChunk f c)
      = (subdivideLargeSection c).map (renameChunk f) := by
  rw [subdivideLargeSection_eq, subdivideLargeSection_eq, subChunksOf_rename]
  by_cases he : subChunksOf c = []
  · rw [he]
    simp
  · rw [if_neg (by simp only [List.isEmpty_eq_true, List.map_eq_nil_iff]; exact he),
      if_neg (by simp only [List.isEmpty_eq_true]; exact he)]

/-- The chunk built by `create_section_chunks` for the accepted section
`p.2` in position `p.1`. -/
def sectionChunk (filename : String) (p : Nat × Section) : Chunk :=
  { text := p.2.content
    content_hash := generateContentHash p.2.content
    sentence_hashes := some (generateSentenceHashes p.2.content)
    metadata := {
      chunk_index := .ofNat p.1
      section_level := p.2.level
      section_number := p.2.number
      section_title := p.2.title
      parent_section := p.2.parent_section.getD "none"
      start_char := p.2.start_pos
      end_char := p.2.end_pos
      char_count := p.2.content.length
      word_count := if p.2.content == "" then 0
        else pyWordCount p.2.content.data
      chunk_type := "section_based"
      filename := filename
      content_hash := generateContentHash p.2.content
      hash_type := "content"
      sentence_count := (generateSentenceHashes p.2.content).length
      sub_chunk_index := none } }

/-- The per-section chunk builder inside `create_section_chunks`. -/
def sectionChunkOf (filename : String) (p : Nat × Section) : Option Chunk :=
  if (pyStrip p.2.content.data).length < 50 then none
  else some (sectionChunk filename p)

theorem createSectionChunks_eq (text filename : String) :
    createSectionChunks text filename =
      (((detectSections text).enum.filterMap (sectionChunkOf filename)).map
        (fun c => if c.metadata.char_count > 2000 then subdivideLargeSection c
          else [c])).join := rfl

theorem sectionChunkOf_rename (f1 f2 : String) (p : Nat × Section) :
    sectionChunkOf f1 p = (sectionChunkOf f2 p).map (renameChunk f1) := by
  unfold sectionChunkOf
  by_cases h : (pyStrip p.2.content.data).length < 50
  · rw [if_pos h, if_pos h]
    rfl
  · rw [if_neg h, if_neg h]
    rfl

theorem createSectionChunks_rename (text f1 f2 : String) :
    createSectionChunks text f1
      = (createSectionChunks text f2).map (renameChunk f1) := by
  rw [createSectionChunks_eq, createSectionChunks_eq]
  rw [show (detectSections text).enum.filterMap (sectionChunkOf f1)
      = ((detectSections text).enum.filterMap (sectionChunkOf f2)).map
        (renameChunk f1) from by
    rw [List.map_filterMap]
    congr 1
    funext p
    exact sectionChunkOf_rename f1 f2 p]
  rw [List.map_map, List.map_join, List.map_map]
  congr 1
  apply List.map_congr_left
  intro c hc
  show (if (renameChunk f1 c).metadata.char_count > 2000 then
      subdivideLargeSection (renameChunk f1 c) else [renameChunk f1 c])
    = (if c.metadata.char_count > 2000 then subdivideLargeSection c
      else [c]).map (renameChunk f1)
  have hcc : (renameChunk f1 c).metadata.char_count = c.metadata.char_count := rfl
  rw [hcc]
  by_cases h : c.metadata.char_count > 2000
  · rw [if_pos h, if_pos h, subdivide_rename]
  · rw [if_neg h, if_neg h]
    rfl

theorem createSectionChunks_hash_filename (text f1 f2 : String) :
    (createSectionChunks text f1).map (fun c => c.content_hash)
      = (createSectionChunks text f2).map (fun c => c.content_hash) := by
  rw [createSectionChunks_rename text f1 f2, List.map_map]
  rfl

/-- Claim C4: the content hash is invariant under its own normalization
(`hash(t) = hash(normalize(t))` for every text), `hash("Foo  Bar") =
hash("foo bar")`, and the hash is a pure function of the normalized text
(equal normalized content anywhere in the corpus hashes identically), and
the chunk hashes produced by the pipeline are independent of the filename. -/
theorem claim4_hash_normalization_invariant :
    (∀ t : String, generateContentHash t = generateContentHash ⟨pyNormalize t.data⟩) ∧
    generateContentHash "Foo  Bar" = generateContentHash "foo bar" ∧
    (∀ t u : String, pyNormalize t.data = pyNormalize u.data →
      generateContentHash t = generateContentHash u) ∧
    (∀ text f1 f2 : String,
      (createSectionChunks text f1).map (fun c => c.content_hash)
        = (createSectionChunks text f2).map (fun c => c.content_hash)) := by
  refine ⟨?_, ?_, ?_, ?_⟩
  · intro t
    show sha256hex ⟨pyNormalize t.data⟩ = sha256hex ⟨pyNormalize (pyNormalize t.data)⟩
    rw [pyNormalize_idem]
  · show sha256hex ⟨pyNormalize "Foo  Bar".data⟩ = sha256hex ⟨pyNormalize "foo bar".data⟩
    have : pyNormalize "Foo  Bar".data = pyNormalize "foo bar".data := by decide
    rw [this]
  · intro t u he
    show sha256hex ⟨pyNormalize t.data⟩ = sha256hex ⟨pyNormalize u.data⟩
    rw [he]
  · exact createSectionChunks_hash_filename

/-- Witness for C4 (the third conjunct has a hypothesis): two texts with
equal normalized forms hash identically. -/
theorem claim4_witness :
    generateContentHash "Mix  the SOLUTION" = generateContentHash " mix the solution " :=
  claim4_hash_normalization_invariant.2.2.1 "Mix  the SOLUTION" " mix the solution "
    (by decide)

/-! ## Claim C6: section levels from number shapes -/

theorem tryPat_level (p : List Char → Option (List Char × List Char))
    (l : List Char) (lv : Nat) (n t : String)
    (h : tryPat p l = some (lv, n, t)) : lv = determineSectionLevel n := by
  unfold tryPat at h
  cases hp : p l with
  | none => rw [hp] at h; cases h
  | some v =>
    rw [hp] at h
    obtain ⟨num, titleRaw⟩ := v
    have h2 : (if isValidSection ⟨pyStrip titleRaw⟩ then
        some (determineSectionLevel ⟨num⟩, (⟨num⟩ : String),
          (⟨pyStrip titleRaw⟩ : String)) else none) = some (lv, n, t) := h
    by_cases hv : isValidSection ⟨pyStrip titleRaw⟩
    · rw [if_pos hv] at h2
      injection h2 with h3
      injection h3 with h4 h5
      injection h5 with h6 h7
      subst h4
      subst h6
      rfl
    · rw [if_neg hv] at h2
      cases h2

theorem orElse_elim {α : Type} (o : Option α) (f : Unit → Option α) (v : α)
    (h : (o.orElse f) = some v) : o = some v ∨ (o = none ∧ f () = some v) := by
  cases o with
  | some w => left; exact h
  | none => right; exact ⟨rfl, h⟩

theorem matchSectionHeader_level (line : String) (lv : Nat) (n t : String)
    (h : matchSectionHeader line = some (lv, n, t)) :
    lv = determineSectionLevel n := by
  unfold matchSectionHeader at h
  rcases orElse_elim _ _ _ h with h1 | ⟨_, h⟩
  · exact tryPat_level pat1 _ _ _ _ h1
  rcases orElse_elim _ _ _ h with h1 | ⟨_, h⟩
  · exact tryPat_level pat2 _ _ _ _ h1
  rcases orElse_elim _ _ _ h with h1 | ⟨_, h⟩
  · exact tryPat_level pat3 _ _ _ _ h1
  rcases orElse_elim _ _ _ h with h1 | ⟨_, h⟩
  · exact tryPat_level pat4 _ _ _ _ h1
  rcases orElse_elim _ _ _ h with h1 | ⟨_, h⟩
  · exact tryPat_level pat5 _ _ _ _ h1
  rcases orElse_elim _ _ _ h with h1 | ⟨_, h⟩
  · exact tryPat_level pat6 _ _ _ _ h1
  rcases orElse_elim _ _ _ h with h1 | ⟨_, h⟩
  · exact tryPat_level pat6 _ _ _ _ h1
  rcases orElse_elim _ _ _ h with h1 | ⟨_, h⟩
  · exact tryPat_level pat8 _ _ _ _ h1
  exact tryPat_level pat9 _ _ _ _ h

theorem splitChar_all_ne (sep : Char) (l : List Char)
    (h : ∀ c ∈ l, ¬ c = sep) : splitChar sep l = [l] := by
  induction l with
  | nil => rfl
  | cons c r ih =>
    have hc : ¬ c = sep := h c (List.mem_cons_self _ _)
    have hr := ih (fun d hd => h d (List.mem_cons_of_mem _ hd))
    simp only [splitChar, if_neg hc, hr]

theorem digitStr_split (l : List Char) (h : isDigitStr l = true) :
    splitChar '.' l = [l] := by
  unfold isDigitStr at h
  rw [Bool.and_eq_true, List.all_eq_true] at h
  apply splitChar_all_ne
  intro c hc he
  have hd := h.2 c hc
  rw [he] at hd
  exact absurd hd (by decide)

theorem pair_not_digitStr (l : List Char) (hp : isDottedPair l = true) :
    isDigitStr l = false := by
  cases hd : isDigitStr l with
  | false => rfl
  | true =>
    exfalso
    unfold isDottedPair at hp
    rw [digitStr_split l hd] at hp
    cases hp

theorem triple_not_digitStr (l : List Char) (hp : isDottedTriple l = true) :
    isDigitStr l = false := by
  cases hd : isDigitStr l with
  | false => rfl
  | true =>
    exfalso
    unfold isDottedTriple at hp
    rw [digitStr_split l hd] at hp
    cases hp

theorem triple_not_pair (l : List Char) (ht : isDottedTriple l = true) :
    isDottedPair l = false := by
  unfold isDottedTriple at ht
  unfold isDottedPair
  rcases hsp : splitChar '.' l with _ | ⟨a, _ | ⟨b, _ | ⟨c, _ | ⟨d, rest⟩⟩⟩⟩ <;>
    rw [hsp] at ht <;> first | cases ht | rfl

theorem singleUpper_shape (l : List Char) (h : isSingleUpper l = true) :
    ∃ c, l = [c] ∧ 65 ≤ c.toNat ∧ c.toNat ≤ 90 := by
  unfold isSingleUpper at h
  rcases l with _ | ⟨c, _ | ⟨d, r⟩⟩
  · cases h
  · rw [Bool.and_eq_true] at h
    exact ⟨c, rfl, by simpa using h.1, by simpa using h.2⟩
  · cases h

theorem singleLower_shape (l : List Char) (h : isSingleLower l = true) :
    ∃ c, l = [c] ∧ 97 ≤ c.toNat ∧ c.toNat ≤ 122 := by
  unfold isSingleLower at h
  rcases l with _ | ⟨c, _ | ⟨d, r⟩⟩
  · cases h
  · rw [Bool.and_eq_true] at h
    exact ⟨c, rfl, by simpa using h.1, by simpa using h.2⟩
  · cases h

theorem letter_split (c : Char) (h : 65 ≤ c.toNat ∧ c.toNat ≤ 122) :
    splitChar '.' [c] = [[c]] := by
  apply splitChar_all_ne
  intro d hd he
  rw [List.mem_singleton] at hd
  subst hd
  rw [he] at h
  revert h
  decide

theorem letter_not_digitStr (c : Char) (h : 65 ≤ c.toNat ∧ c.toNat ≤ 122) :
    isDigitStr [c] = false := by
  unfold isDigitStr
  simp only [List.all_cons, List.all_nil, Bool.and_true]
  unfold isDigitC
  simp only [Bool.and_eq_false_iff, decide_eq_false_iff_not]
  simp only [List.isEmpty_cons, Bool.not_false, Bool.true_and]
  omega

theorem letter_not_pair (c : Char) (h : 65 ≤ c.toNat ∧ c.toNat ≤ 122) :
    isDottedPair [c] = false := by
  unfold isDottedPair
  rw [letter_split c h]

theorem letter_not_triple (c : Char) (h : 65 ≤ c.toNat ∧ c.toNat ≤ 122) :
    isDottedTriple [c] = false := by
  unfold isDottedTriple
  rw [letter_split c h]

theorem roman_chars (l : List Char) (h : isRomanUpperStr l = true) :
    l ≠ [] ∧ ∀ c ∈ l, c.toNat = 73 ∨ c.toNat = 86 ∨ c.toNat = 88 := by
  unfold isRomanUpperStr at h
  rw [Bool.and_eq_true, List.all_eq_true] at h
  refine ⟨by simpa using h.1, ?_⟩
  intro c hc
  have := h.2 c hc
  simp only [Bool.or_eq_true, decide_eq_true_eq] at this
  rcases this with (h1 | h1) | h1 <;> subst h1 <;> decide

theorem roman_not_digitStr (l : List Char) (h : isRomanUpperStr l = true) :
    isDigitStr l = false := by
  obtain ⟨hne, hall⟩ := roman_chars l h
  cases l with
  | nil => exact absurd rfl hne
  | cons c r =>
    have hc := hall c (List.mem_cons_self _ _)
    unfold isDigitStr
    simp only [List.all_cons]
    unfold isDigitC
    have : (48 ≤ c.toNat && c.toNat ≤ 57) = false := by
      simp only [Bool.and_eq_false_iff, decide_eq_false_iff_not]
      omega
    rw [this]
    simp

theorem roman_split (l : List Char) (h : isRomanUpperStr l = true) :
    splitChar '.' l = [l] := by
  obtain ⟨_, hall⟩ := roman_chars l h
  apply splitChar_all_ne
  intro c hc he
  have := hall c hc
  rw [he] at this
  revert this
  decide

theorem roman_not_pair (l : List Char) (h : isRomanUpperStr l = true) :
    isDottedPair l = false := by
  unfold isDottedPair
  rw [roman_split l h]

theorem roman_not_triple (l : List Char) (h : isRomanUpperStr l = true) :
    isDottedTriple l = false := by
  unfold isDottedTriple
  rw [roman_split l h]

theorem lower_not_upper (c : Char) (h : 97 ≤ c.toNat ∧ c.toNat ≤ 122) :
    isSingleUpper [c] = false := by
  unfold isSingleUpper
  simp only [Bool.and_eq_false_iff, decide_eq_false_iff_not]
  omega

theorem lower_not_roman (c : Char) (h : 97 ≤ c.toNat ∧ c.toNat ≤ 122) :
    isRomanUpperStr [c] = false := by
  cases hr : isRomanUpperStr [c] with
  | false => rfl
  | true =>
    exfalso
    obtain ⟨_, hall⟩ := roman_chars [c] hr
    have := hall c (List.mem_cons_self _ _)
    omega

/-- Claim C6 (amended): for every line accepted as a header, the level is
a pure function of the shape of the captured section number: a plain
integer gives level 1, one dot gives level 2, two dots give level 3, an
uppercase letter or an uppercase Roman-numeral string gives level 1, and a
lowercase letter (captured case-insensitively from headers like
`"a. Title"` or `"a) Title"`) gives level 2, not 1. -/
theorem claim6_level_from_number_shape (line : String) (level : Nat)
    (number title : String)
    (h : matchSectionHeader line = some (level, number, title)) :
    (isDigitStr number.data = true → level = 1) ∧
    (isDottedPair number.data = true → level = 2) ∧
    (isDottedTriple number.data = true → level = 3) ∧
    (isSingleUpper number.data = true → level = 1) ∧
    (isRomanUpperStr number.data = true → level = 1) ∧
    (isSingleLower number.data = true → level = 2) := by
  have hl := matchSectionHeader_level line level number title h
  subst hl
  unfold determineSectionLevel
  refine ⟨?_, ?_, ?_, ?_, ?_, ?_⟩
  · intro hs
    rw [if_pos hs]
  · intro hs
    rw [if_neg (by rw [pair_not_digitStr _ hs]; exact fun he => nomatch he),
      if_pos hs]
  · intro hs
    rw [if_neg (by rw [triple_not_digitStr _ hs]; exact fun he => nomatch he),
      if_neg (by rw [triple_not_pair _ hs]; exact fun he => nomatch he),
      if_pos hs]
  · intro hs
    obtain ⟨c, he, hb⟩ := singleUpper_shape _ hs
    rw [he]
    rw [if_neg (by rw [letter_not_digitStr c ⟨hb.1, by omega⟩]; exact fun x => nomatch x),
      if_neg (by rw [letter_not_pair c ⟨hb.1, by omega⟩]; exact fun x => nomatch x),
      if_neg (by rw [letter_not_triple c ⟨hb.1, by omega⟩]; exact fun x => nomatch x),
      if_pos (by rw [← he]; exact hs)]
  · intro hs
    by_cases hu : isSingleUpper number.data = true
    · obtain ⟨c, he, hb⟩ := singleUpper_shape _ hu
      rw [he,
        if_neg (by rw [letter_not_digitStr c ⟨hb.1, by omega⟩]; exact fun x => nomatch x),
        if_neg (by rw [letter_not_pair c ⟨hb.1, by omega⟩]; exact fun x => nomatch x),
        if_neg (by rw [letter_not_triple c ⟨hb.1, by omega⟩]; exact fun x => nomatch x),
        if_pos (by rw [← he]; exact hu)]
    · rw [if_neg (by rw [roman_not_digitStr _ hs]; exact fun x => nomatch x),
        if_neg (by rw [roman_not_pair _ hs]; exact fun x => nomatch x),
        if_neg (by rw [roman_not_triple _ hs]; exact fun x => nomatch x),
        if_neg hu, if_pos hs]
  · intro hs
    obtain ⟨c, he, hb⟩ := singleLower_shape _ hs
    rw [he,
      if_neg (by rw [letter_not_digitStr c ⟨by omega, hb.2⟩]; exact fun x => nomatch x),
      if_neg (by rw [letter_not_pair c ⟨by omega, hb.2⟩]; exact fun x => nomatch x),
      if_neg (by rw [letter_not_triple c ⟨by omega, hb.2⟩]; exact fun x => nomatch x),
      if_neg (by rw [lower_not_upper c hb]; exact fun x => nomatch x),
      if_neg (by rw [lower_not_roman c hb]; exact fun x => nomatch x),
      if_pos (by rw [← he]; exact hs)]

/-- Witness for C6: the theorem applied at the concrete accepted headers
`"1. Introduction"` (level 1) and `"1.1 Scope"` (level 2). -/
theorem claim6_witness :
    ((isDigitStr ("1" : String).data = true → 1 = 1) ∧
     (isDottedPair ("1" : String).data = true → 1 = 2) ∧
     (isDottedTriple ("1" : String).data = true → 1 = 3) ∧
     (isSingleUpper ("1" : String).data = true → 1 = 1) ∧
     (isRomanUpperStr ("1" : String).data = true → 1 = 1) ∧
     (isSingleLower ("1" : String).data = true → 1 = 2)) ∧
    ((isDigitStr ("1.1" : String).data = true → 2 = 1) ∧
     (isDottedPair ("1.1" : String).data = true → 2 = 2) ∧
     (isDottedTriple ("1.1" : String).data = true → 2 = 3) ∧
     (isSingleUpper ("1.1" : String).data = true → 2 = 1) ∧
     (isRomanUpperStr ("1.1" : String).data = true → 2 = 1) ∧
     (isSingleLower ("1.1" : String).data = true → 2 = 2)) :=
  ⟨claim6_level_from_number_shape "1. Introduction" 1 "1" "Introduction" (by decide),
   claim6_level_from_number_shape "1.1 Scope" 2 "1.1" "Scope" (by decide)⟩

/-- Counterexample for C6 as stated: the lettered parenthesis-style header
`"a) Safety rules"` is accepted with captured number `"a"`, and its level
is 2, not the claimed 1. -/
theorem claim6_counterexample :
    matchSectionHeader "a) Safety rules" = some (2, "a", "Safety rules") ∧
    (2 : Nat) ≠ 1 := by
  refine ⟨by decide, by decide⟩

/-! ## Claim C7: documents with no recognizable headers -/

/-- The synthetic section emitted when no header pattern matches. -/
def documentContentSection (text : String) : Section :=
  { level := 1
    number := "1"
    title := "Document Content"
    content := ⟨pyStrip text.data⟩
    start_pos := 0
    end_pos := text.length
    parent_section := none }

theorem detectLoop_no_headers (text : String) :
    ∀ (lines : List (Nat × List Char)) (buf : List (List Char)),
    (∀ p ∈ lines, matchSectionHeader ⟨pyStrip p.2⟩ = none) →
    detectLoop text lines [] none buf = [] := by
  intro lines
  induction lines with
  | nil => intro buf _; rfl
  | cons p rest ih =>
    intro buf h
    obtain ⟨i, line⟩ := p
    have hm : (if (pyStrip line).isEmpty then none
        else matchSectionHeader ⟨pyStrip line⟩) = none := by
      by_cases he : (pyStrip line).isEmpty
      · rw [if_pos he]
      · rw [if_neg he]
        exact h (i, line) (List.mem_cons_self _ _)
    show detectLoop text ((i, line) :: rest) [] none buf = []
    unfold detectLoop
    dsimp only
    rw [hm]
    exact ih buf (fun q hq => h q (List.mem_cons_of_mem _ hq))

theorem detectSections_no_headers (text : String)
    (hnone : ∀ l ∈ splitChar '\n' text.data, matchSectionHeader ⟨pyStrip l⟩ = none) :
    detectSections text = [documentContentSection text] := by
  unfold detectSections
  have h1 : detectLoop text (splitChar '\n' text.data).enum [] none [] = [] := by
    apply detectLoop_no_headers
    intro p hp
    apply hnone
    have : p.2 ∈ (splitChar '\n' text.data).enum.map Prod.snd :=
      List.mem_map_of_mem _ hp
    rwa [List.enum_map_snd] at this
  dsimp only
  rw [h1]
  rfl

theorem pyStrip_idem (l : List Char) : pyStrip (pyStrip l) = pyStrip l :=
  pyStrip_eq_of_ends _ (pyStrip_ends l).1 (pyStrip_ends l).2

/-- Claim C7 (amended): if no line of the document matches any header
pattern, `detect_sections` returns exactly the single synthetic
`"Document Content"` section holding the trimmed text; and if that trimmed
text has at least 50 and at most 2000 characters, `create_section_chunks`
returns exactly one chunk.  (Above 2000 characters the chunk is further
subdivided — see the counterexample.) -/
theorem claim7_no_header_single_section (text fname : String)
    (hnone : ∀ l ∈ splitChar '\n' text.data, matchSectionHeader ⟨pyStrip l⟩ = none)
    (h50 : 50 ≤ (pyStrip text.data).length)
    (h2000 : (pyStrip text.data).length ≤ 2000) :
    detectSections text = [documentContentSection text] ∧
    (createSectionChunks text fname).length = 1 := by
  have hsec := detectSections_no_headers text hnone
  refine ⟨hsec, ?_⟩
  unfold createSectionChunks
  rw [hsec]
  have hstrip : pyStrip (documentContentSection text).content.data
      = pyStrip text.data := pyStrip_idem text.data
  have hcond : ¬ (pyStrip (documentContentSection text).content.data).length < 50 := by
    rw [hstrip]
    omega
  simp only [List.enum_singleton, List.filterMap_cons, List.filterMap_nil]
  rw [if_neg hcond]
  have hcc : (documentContentSection text).content.length ≤ 2000 := h2000
  simp only [List.map_cons, List.map_nil]
  rw [if_neg (by simpa using (by omega : ¬ (documentContentSection text).content.length > 2000))]
  rfl

def c7WitnessText : String :=
  "plain unstructured paragraph content that is long enough to index"

/-- Witness for C7 at a concrete header-free document. -/
theorem claim7_witness :
    detectSections c7WitnessText = [documentContentSection c7WitnessText] ∧
    (createSectionChunks c7WitnessText "doc.txt").length = 1 :=
  claim7_no_header_single_section c7WitnessText "doc.txt"
    (by decide) (by decide) (by decide)

def c7BigText : String :=
  ⟨List.replicate 1200 'a' ++ '\n' :: '\n' :: List.replicate 1300 'b'⟩

/-! ### Shallow-evaluation lemmas for the large concrete counterexamples

The concrete texts of the remaining counterexamples are thousands of
characters long, so the facts about them are derived equationally from
their `List.replicate`/append shape instead of by kernel evaluation. -/

theorem headNonWs_cons (c : Char) (l : List Char) (h : isPyWs c = false) :
    headNonWs (c :: l) := by
  intro d hd
  rw [List.head?_cons] at hd
  cases hd
  exact h

theorem lastNonWs_last (l : List Char) (c : Char) (hg : l.getLast? = some c)
    (h : isPyWs c = false) : lastNonWs l := by
  intro d hd
  rw [hg] at hd
  cases hd
  exact h

theorem getLast?_replicate_succ (n : Nat) (c : Char) :
    (List.replicate (n + 1) c).getLast? = some c := by
  rw [← List.head?_reverse, List.reverse_replicate, List.replicate_succ]
  rfl

theorem pyStrip_replicate (n : Nat) (c : Char) (h : isPyWs c = false) :
    pyStrip (List.replicate n c) = List.replicate n c := by
  cases n with
  | zero => rfl
  | succ m =>
    refine pyStrip_eq_of_ends _ ?_
      (lastNonWs_last _ c (getLast?_replicate_succ m c) h)
    rw [List.replicate_succ]
    exact headNonWs_cons c _ h

theorem splitChar_cons_ne (sep c : Char) (r : List Char) (hc : ¬ c = sep)
    (q : List Char) (qs : List (List Char)) (hq : splitChar sep r = q :: qs) :
    splitChar sep (c :: r) = (c :: q) :: qs := by
  unfold splitChar
  rw [if_neg hc, hq]

theorem splitChar_not_mem (sep : Char) (l : List Char) :
    sep ∉ l → splitChar sep l = [l] := by
  induction l with
  | nil => intro _; rfl
  | cons c r ih =>
    intro h
    have hc : ¬ c = sep := by
      intro he
      apply h
      rw [← he]
      exact List.mem_cons_self _ _
    exact splitChar_cons_ne sep c r hc r []
      (ih (fun hm => h (List.mem_cons_of_mem _ hm)))

theorem splitChar_cons_sep (sep : Char) (l : List Char) :
    splitChar sep (sep :: l) = [] :: splitChar sep l := by
  simp [splitChar]

theorem splitChar_append_sep (sep : Char) (l₂ : List Char) :
    ∀ l₁ : List Char, sep ∉ l₁ →
      splitChar sep (l₁ ++ sep :: l₂) = l₁ :: splitChar sep l₂ := by
  intro l₁
  induction l₁ with
  | nil =>
    intro _
    rw [List.nil_append]
    exact splitChar_cons_sep sep l₂
  | cons c r ih =>
    intro h
    have hc : ¬ c = sep := by
      intro he
      apply h
      rw [← he]
      exact List.mem_cons_self _ _
    rw [List.cons_append]
    exact splitChar_cons_ne sep c _ hc r (splitChar sep l₂)
      (ih (fun hm => h (List.mem_cons_of_mem _ hm)))

theorem splitNN_cons_ne (c d : Char) (r : List Char) (hc : ¬ (c = '\n' ∧ d = '\n'))
    (q : List Char) (qs : List (List Char)) (hq : splitNN (d :: r) = q :: qs) :
    splitNN (c :: d :: r) = (c :: q) :: qs := by
  unfold splitNN
  rw [if_neg hc, hq]

theorem splitNN_cons_sep (r : List Char) :
    splitNN ('\n' :: '\n' :: r) = [] :: splitNN r := by
  simp [splitNN]

theorem splitNN_no_nl (l : List Char) : '\n' ∉ l → splitNN l = [l] := by
  induction l using splitNN.induct with
  | case1 => intro _; rfl
  | case2 c => intro _; rfl
  | case3 c d r hcond ih =>
    intro h
    exfalso
    apply h
    rw [hcond.1]
    exact List.mem_cons_self _ _
  | case4 c d r hcond heq ih =>
    intro h
    have hdr := ih (fun hm => h (List.mem_cons_of_mem _ hm))
    rw [heq] at hdr
    exact List.noConfusion hdr
  | case5 c d r hcond q ps heq ih =>
    intro h
    have hdr := ih (fun hm => h (List.mem_cons_of_mem _ hm))
    rw [heq] at hdr
    injection hdr with h1 h2
    subst h1
    subst h2
    exact splitNN_cons_ne c d r hcond _ _ heq

theorem splitNN_append (l₂ : List Char) :
    ∀ l₁ : List Char, '\n' ∉ l₁ →
      splitNN (l₁ ++ '\n' :: '\n' :: l₂) = l₁ :: splitNN l₂ := by
  intro l₁
  induction l₁ with
  | nil =>
    intro _
    rw [List.nil_append]
    exact splitNN_cons_sep l₂
  | cons c r ih =>
    intro h
    have hcn : ¬ c = '\n' := by
      intro he
      apply h
      rw [← he]
      exact List.mem_cons_self _ _
    have hr : '\n' ∉ r := fun hm => h (List.mem_cons_of_mem _ hm)
    cases r with
    | nil =>
      rw [List.cons_append, List.nil_append]
      exact splitNN_cons_ne c '\n' ('\n' :: l₂) (fun hx => hcn hx.1) [] (splitNN l₂)
        (splitNN_cons_sep l₂)
    | cons x r2 =>
      have h2 := ih hr
      rw [List.cons_append] at h2
      rw [List.cons_append, List.cons_append]
      exact splitNN_cons_ne c x (r2 ++ '\n' :: '\n' :: l₂) (fun hx => hcn hx.1)
        (x :: r2) (splitNN l₂) h2

theorem filterMap_eq_nil_of_none {α β : Type} (l : List α) (f : α → Option β) :
    (∀ x ∈ l, f x = none) → l.filterMap f = [] := by
  induction l with
  | nil => intro _; rfl
  | cons c r ih =>
    intro h
    rw [List.filterMap_cons, h c (List.mem_cons_self _ _),
      ih (fun x hx => h x (List.mem_cons_of_mem _ hx))]

theorem paraSplit_eq_of_strip (l : List Char) (h : '\n' ∉ l) (hs : pyStrip l = l)
    (hne : l ≠ []) : paraSplit l = [l] := by
  unfold paraSplit
  rw [splitNN_no_nl l h]
  simp only [List.filterMap_cons, List.filterMap_nil]
  rw [hs]
  rw [if_neg (by simp [List.isEmpty_eq_true, hne])]

theorem splitPunctGo_cons_ne (c : Char) (r : List Char) (hc : isSentPunct c = false)
    (q : List Char) (qs : List (List Char)) (hq : splitPunctGo false r = q :: qs) :
    splitPunctGo false (c :: r) = (c :: q) :: qs := by
  unfold splitPunctGo
  rw [if_neg (by simp [hc]), hq]

theorem splitPunctGo_no_punct (l : List Char) :
    (∀ c ∈ l, isSentPunct c = false) → splitPunctGo false l = [l] := by
  induction l with
  | nil => intro _; rfl
  | cons c r ih =>
    intro h
    exact splitPunctGo_cons_ne c r (h c (List.mem_cons_self _ _)) r []
      (ih (fun x hx => h x (List.mem_cons_of_mem _ hx)))

theorem splitPunct_no_punct (l : List Char)
    (h : ∀ c ∈ l, isSentPunct c = false) : splitPunct l = [l] :=
  splitPunctGo_no_punct l h

theorem matchSentBoundary_none (c : Char) (r : List Char)
    (hc : isSentPunct c = false) : matchSentBoundary (c :: r) = none := by
  unfold matchSentBoundary
  dsimp only
  rw [List.takeWhile_cons, hc]
  rfl

theorem splitSentSepGo_no_punct (fuel : Nat) :
    ∀ l : List Char, (∀ c ∈ l, isSentPunct c = false) →
      splitSentSepGo fuel l = [l] := by
  induction fuel with
  | zero =>
    intro l _
    cases l with
    | nil => rfl
    | cons c r => rfl
  | succ f ih =>
    intro l h
    cases l with
    | nil => rfl
    | cons c r =>
      have hb := matchSentBoundary_none c r (h c (List.mem_cons_self _ _))
      have hr := ih r (fun x hx => h x (List.mem_cons_of_mem _ hx))
      unfold splitSentSepGo
      rw [hb, hr]

theorem splitSentSep_no_punct (l : List Char)
    (h : ∀ c ∈ l, isSentPunct c = false) : splitSentSep l = [l] :=
  splitSentSepGo_no_punct l.length l h

theorem pyStrip_append_dot_space (n : Nat) :
    pyStrip (List.replicate n 'a' ++ ['.', ' ']) = List.replicate n 'a' ++ ['.'] := by
  unfold pyStrip
  have h1 : (List.replicate n 'a' ++ ['.', ' ']).dropWhile isPyWs
      = List.replicate n 'a' ++ ['.', ' '] := by
    cases n with
    | zero => rfl
    | succ m =>
      apply dropWhile_eq_of_headNonWs
      rw [List.replicate_succ, List.cons_append]
      exact headNonWs_cons _ _ (by decide)
  rw [h1, List.reverse_append,
    show (['.', ' '] : List Char).reverse = ' ' :: '.' :: [] from rfl,
    List.cons_append, List.cons_append, List.nil_append,
    List.dropWhile_cons, if_pos (by decide), List.dropWhile_cons, if_neg (by decide),
    List.reverse_cons, List.reverse_reverse]

theorem pyStrip_append_dot (n : Nat) :
    pyStrip (List.replicate n 'a' ++ ['.']) = List.replicate n 'a' ++ ['.'] := by
  refine pyStrip_eq_of_ends _ ?_ ?_
  · cases n with
    | zero => exact headNonWs_cons '.' [] (by decide)
    | succ m =>
      rw [List.replicate_succ, List.cons_append]
      exact headNonWs_cons _ _ (by decide)
  · refine lastNonWs_last _ '.' ?_ (by decide)
    rw [List.getLast?_append_of_ne_nil _ (List.cons_ne_nil _ _)]
    rfl

theorem sentenceFallback_replicate (n : Nat) (hn : 1000 ≤ n) :
    sentenceFallback (List.replicate n 'a')
      = [List.replicate n 'a' ++ ['.']] := by
  unfold sentenceFallback
  dsimp only
  rw [splitSentSep_no_punct _ (fun c hc => by
    rw [List.eq_of_mem_replicate hc]
    rfl)]
  rw [List.foldl_cons, List.foldl_nil]
  dsimp only
  rw [if_neg (show ¬ (([] : List Char) ++ List.replicate n 'a').length < 1000 from by
    rw [List.nil_append, List.length_replicate]
    omega)]
  rw [if_pos (show (([] : List Char)).isEmpty = true from rfl)]
  dsimp only
  rw [if_neg (show ¬ ((List.replicate n 'a' ++ ['.', ' ']).isEmpty = true) from by
    simp [List.isEmpty_eq_true])]
  rw [List.nil_append, pyStrip_append_dot_space]

theorem matchSectionHeader_aa (r : List Char) :
    matchSectionHeader ⟨'a' :: 'a' :: r⟩ = none := rfl

theorem matchSectionHeader_bb (r : List Char) :
    matchSectionHeader ⟨'b' :: 'b' :: r⟩ = none := rfl

theorem matchSectionHeader_nil : matchSectionHeader ⟨([] : List Char)⟩ = none := rfl

/-- `create_section_chunks` on a document whose sole detected section is the
synthetic one and whose trimmed text is accepted (at least 50 characters)
but oversized (more than 2000): the single section chunk goes through
`_subdivide_large_section`. -/
theorem createSectionChunks_single (text fname : String)
    (hsec : detectSections text = [documentContentSection text])
    (h50 : ¬ (pyStrip (pyStrip text.data)).length < 50)
    (h2000 : (pyStrip text.data).length > 2000) :
    createSectionChunks text fname
      = subdivideLargeSection (sectionChunk fname (0, documentContentSection text)) := by
  rw [createSectionChunks_eq, hsec]
  simp only [List.enum_singleton, List.filterMap_cons, List.filterMap_nil]
  rw [show sectionChunkOf fname (0, documentContentSection text)
      = some (sectionChunk fname (0, documentContentSection text)) from by
    unfold sectionChunkOf
    show (if (pyStrip (pyStrip text.data)).length < 50 then none
      else some (sectionChunk fname (0, documentContentSection text)))
      = some (sectionChunk fname (0, documentContentSection text))
    rw [if_neg h50]]
  simp only [List.map_cons, List.map_nil]
  rw [if_pos (show (sectionChunk fname (0, documentContentSection text)).metadata.char_count
      > 2000 from h2000)]
  simp [List.join]

theorem sectionChunk_text_data (fname text : String) :
    (sectionChunk fname (0, documentContentSection text)).text.data
      = pyStrip text.data := rfl

theorem sectionChunk_char_count (fname text : String) :
    (sectionChunk fname (0, documentContentSection text)).metadata.char_count
      = (pyStrip text.data).length := rfl

theorem sectionChunk_sentences (fname text : String) :
    (sectionChunk fname (0, documentContentSection text)).sentence_hashes
      = some (generateSentenceHashes (documentContentSection text).content) := rfl

theorem documentContentSection_data (text : String) :
    (documentContentSection text).content.data = pyStrip text.data := rfl

theorem addDocumentChunks_d2sh (s : EMState) (d : String) (chunks : List Chunk) :
    (addDocumentChunks s d chunks).document_to_sentence_hashes
      = (chunks.foldl (addChunkStep d) s).document_to_sentence_hashes := rfl

theorem pyStrip_length_le (l : List Char) : (pyStrip l).length ≤ l.length := by
  unfold pyStrip
  rw [List.length_reverse]
  calc ((l.dropWhile isPyWs).reverse.dropWhile isPyWs).length
      ≤ (l.dropWhile isPyWs).reverse.length := length_dropWhile_le _ _
    _ = (l.dropWhile isPyWs).length := List.length_reverse _
    _ ≤ l.length := length_dropWhile_le _ _

theorem mem_splitNN_length (l : List Char) :
    ∀ p ∈ splitNN l, p.length ≤ l.length := by
  induction l using splitNN.induct with
  | case1 =>
    intro p hp
    simp only [splitNN, List.mem_singleton] at hp
    subst hp
    simp
  | case2 c =>
    intro p hp
    simp only [splitNN, List.mem_singleton] at hp
    subst hp
    simp
  | case3 c d r hcond ih =>
    intro p hp
    simp only [splitNN, if_pos hcond] at hp
    rcases List.mem_cons.mp hp with rfl | hpr
    · simp
    · have := ih p hpr
      simp only [List.length_cons]
      omega
  | case4 c d r hcond heq ih =>
    intro p hp
    simp only [splitNN, if_neg hcond, heq] at hp
    rw [List.mem_singleton] at hp
    subst hp
    simp
  | case5 c d r hcond q ps heq ih =>
    intro p hp
    simp only [splitNN, if_neg hcond, heq] at hp
    rcases List.mem_cons.mp hp with rfl | hpr
    · have hq : q ∈ splitNN (d :: r) := by rw [heq]; exact List.mem_cons_self _ _
      have := ih q hq
      simp only [List.length_cons] at this ⊢
      omega
    · have hq : p ∈ splitNN (d :: r) := by
        rw [heq]
        exact List.mem_cons_of_mem _ hpr
      have := ih p hq
      simp only [List.length_cons] at this ⊢
      omega

theorem filterMap_total {α β : Type} (l : List α) (f : α → Option β) (g : α → β)
    (h : ∀ x ∈ l, f x = some (g x)) : l.filterMap f = l.map g := by
  induction l with
  | nil => rfl
  | cons x r ih =>
    rw [List.filterMap_cons, h x (List.mem_cons_self _ _), List.map_cons,
      ih (fun y hy => h y (List.mem_cons_of_mem _ hy))]

theorem mem_paraSplit (content : List Char) (q : List Char)
    (hq : q ∈ paraSplit content) :
    q.length ≤ content.length ∧ pyStrip q = q := by
  unfold paraSplit at hq
  rw [List.mem_filterMap] at hq
  obtain ⟨p, hp, hf⟩ := hq
  by_cases he : (pyStrip p).isEmpty
  · rw [if_pos he] at hf
    cases hf
  · rw [if_neg he] at hf
    injection hf with hf
    subst hf
    constructor
    · calc (pyStrip p).length ≤ p.length := pyStrip_length_le p
        _ ≤ content.length := mem_splitNN_length content p hp
    · exact pyStrip_idem p

theorem subChunks_filterMap_eq (c : Chunk) (en : List (Nat × List Char))
    (h : ∀ x ∈ en, ¬ (pyStrip x.2).length < 30) :
    en.filterMap (fun p => if (pyStrip p.2).length < 30 then none
      else some (mkSubChunk c p)) = en.map (mkSubChunk c) := by
  apply filterMap_total
  intro x hx
  rw [if_neg (h x hx)]

theorem subdivide_eq_map (c : Chunk)
    (h2 : 2 ≤ (paraSplit c.text.data).length)
    (h30 : ∀ p ∈ paraSplit c.text.data, 30 ≤ p.length) :
    subdivideLargeSection c = (paraSplit c.text.data).enum.map (mkSubChunk c) := by
  have hgt : ¬ (paraSplit c.text.data).length ≤ 1 := by omega
  have hall : ∀ x ∈ (paraSplit c.text.data).enum, ¬ (pyStrip x.2).length < 30 := by
    intro x hx
    have hx2 : x.2 ∈ paraSplit c.text.data := by
      have : x.2 ∈ (paraSplit c.text.data).enum.map Prod.snd :=
        List.mem_map_of_mem _ hx
      rwa [List.enum_map_snd] at this
    have hs : pyStrip x.2 = x.2 := (mem_paraSplit _ _ hx2).2
    have h30x : 30 ≤ x.2.length := h30 x.2 hx2
    rw [hs]
    omega
  unfold subdivideLargeSection
  dsimp only
  rw [if_neg hgt]
  show (if ((paraSplit c.text.data).enum.filterMap (fun p =>
      if (pyStrip p.2).length < 30 then none else some (mkSubChunk c p))).isEmpty = true
    then [c]
    else (paraSplit c.text.data).enum.filterMap (fun p =>
      if (pyStrip p.2).length < 30 then none else some (mkSubChunk c p)))
    = (paraSplit c.text.data).enum.map (mkSubChunk c)
  rw [subChunks_filterMap_eq c _ hall]
  rw [if_neg (by
    simp only [List.isEmpty_eq_true, List.map_eq_nil_iff]
    intro he
    have hlen0 : (paraSplit c.text.data).enum.length = 0 := by rw [he]; rfl
    rw [List.enum_length] at hlen0
    omega)]

theorem c7_split :
    splitChar '\n' c7BigText.data
      = [List.replicate 1200 'a', [], List.replicate 1300 'b'] := by
  show splitChar '\n'
    (List.replicate 1200 'a' ++ '\n' :: '\n' :: List.replicate 1300 'b') = _
  rw [splitChar_append_sep '\n' ('\n' :: List.replicate 1300 'b')
      (List.replicate 1200 'a')
      (fun hm => absurd (List.eq_of_mem_replicate hm) (by decide)),
    splitChar_cons_sep,
    splitChar_not_mem '\n' (List.replicate 1300 'b')
      (fun hm => absurd (List.eq_of_mem_replicate hm) (by decide))]

theorem c7_strip : pyStrip c7BigText.data = c7BigText.data := by
  refine pyStrip_eq_of_ends _ ?_ ?_
  · show headNonWs (List.replicate 1200 'a' ++ '\n' :: '\n' :: List.replicate 1300 'b')
    rw [show (1200 : Nat) = 1199 + 1 from rfl, List.replicate_succ, List.cons_append]
    exact headNonWs_cons _ _ (by decide)
  · refine lastNonWs_last _ 'b' ?_ (by decide)
    show (List.replicate 1200 'a' ++ '\n' :: '\n' :: List.replicate 1300 'b').getLast?
      = some 'b'
    have hne : List.replicate 1300 'b' ≠ [] := by
      rw [show (1300 : Nat) = 1299 + 1 from rfl, List.replicate_succ]
      exact List.cons_ne_nil _ _
    rw [List.getLast?_append_of_ne_nil _ (List.cons_ne_nil _ _),
      getLast?_cons_of_ne_nil _ _ (List.cons_ne_nil _ _),
      getLast?_cons_of_ne_nil _ _ hne,
      show (1300 : Nat) = 1299 + 1 from rfl]
    exact getLast?_replicate_succ 1299 'b'

theorem c7_hnone : ∀ l ∈ splitChar '\n' c7BigText.data,
    matchSectionHeader ⟨pyStrip l⟩ = none := by
  rw [c7_split]
  intro l hl
  rcases List.mem_cons.mp hl with rfl | hl
  · rw [pyStrip_replicate 1200 'a' (by decide),
      show List.replicate 1200 'a' = 'a' :: 'a' :: List.replicate 1198 'a' from rfl]
    exact matchSectionHeader_aa _
  rcases List.mem_cons.mp hl with rfl | hl
  · exact matchSectionHeader_nil
  rcases List.mem_cons.mp hl with rfl | hl
  · rw [pyStrip_replicate 1300 'b' (by decide),
      show List.replicate 1300 'b' = 'b' :: 'b' :: List.replicate 1298 'b' from rfl]
    exact matchSectionHeader_bb _
  · cases hl

theorem c7_para :
    paraSplit (pyStrip c7BigText.data)
      = [List.replicate 1200 'a', List.replicate 1300 'b'] := by
  rw [c7_strip]
  show paraSplit (List.replicate 1200 'a' ++ '\n' :: '\n' :: List.replicate 1300 'b') = _
  unfold paraSplit
  rw [splitNN_append (List.replicate 1300 'b') (List.replicate 1200 'a')
      (fun hm => absurd (List.eq_of_mem_replicate hm) (by decide)),
    splitNN_no_nl (List.replicate 1300 'b')
      (fun hm => absurd (List.eq_of_mem_replicate hm) (by decide))]
  simp only [List.filterMap_cons, List.filterMap_nil]
  rw [pyStrip_replicate 1200 'a' (by decide), pyStrip_replicate 1300 'b' (by decide),
    if_neg (by decide), if_neg (by decide)]

/-- Counterexample for C7 as stated: a header-free document of 2502
characters (well above 50) yields two chunks, because the single synthetic
section exceeds the 2000-character threshold and is subdivided. -/
theorem claim7_counterexample :
    ((splitChar '\n' c7BigText.data).all
      (fun l => (matchSectionHeader ⟨pyStrip l⟩).isNone)) = true ∧
    50 ≤ (pyStrip c7BigText.data).length ∧
    (createSectionChunks c7BigText "doc.txt").length = 2 := by
  have hlen : (pyStrip c7BigText.data).length = 2502 := by
    rw [c7_strip]
    show (List.replicate 1200 'a' ++ '\n' :: '\n' :: List.replicate 1300 'b').length
      = 2502
    rw [List.length_append, List.length_replicate, List.length_cons,
      List.length_cons, List.length_replicate]
  refine ⟨?_, by omega, ?_⟩
  · rw [c7_split]
    simp only [List.all_cons, List.all_nil]
    rw [pyStrip_replicate 1200 'a' (by decide),
      show List.replicate 1200 'a' = 'a' :: 'a' :: List.replicate 1198 'a' from rfl,
      matchSectionHeader_aa,
      pyStrip_replicate 1300 'b' (by decide),
      show List.replicate 1300 'b' = 'b' :: 'b' :: List.replicate 1298 'b' from rfl,
      matchSectionHeader_bb]
    rfl
  · rw [createSectionChunks_single c7BigText "doc.txt"
      (detectSections_no_headers c7BigText c7_hnone)
      (by rw [pyStrip_idem]; omega) (by omega)]
    have hpp : paraSplit
        (sectionChunk "doc.txt" (0, documentContentSection c7BigText)).text.data
        = [List.replicate 1200 'a', List.replicate 1300 'b'] := by
      rw [sectionChunk_text_data]
      exact c7_para
    rw [subdivide_eq_map (sectionChunk "doc.txt" (0, documentContentSection c7BigText))
      (by rw [hpp]; simp only [List.length_cons, List.length_nil]; omega)
      (by
        rw [hpp]
        intro p hp
        rcases List.mem_cons.mp hp with rfl | hp
        · rw [List.length_replicate]; omega
        rcases List.mem_cons.mp hp with rfl | hp
        · rw [List.length_replicate]; omega
        · cases hp)]
    rw [List.length_map, List.enum_length, hpp]
    rfl

/-! ## Claim C8: subdivision of oversized sections -/

/-- Claim C8 (amended): when the content of an oversized section splits on
blank lines into at least two paragraphs of at least 30 trimmed characters
each, the Chunk Builder subdivides it into exactly one sub-chunk per
paragraph (hence at least 2), each no longer than the original section,
each with its own freshly computed `content_hash`, with sub-indices
`"<i>.0"`, `"<i>.1"`, … derived from the parent index.  (Without such
paragraphs the subdivision can return a single sub-chunk that is longer
than the original — see the counterexample.) -/
theorem claim8_subdivision (c : Chunk)
    (h2 : 2 ≤ (paraSplit c.text.data).length)
    (h30 : ∀ p ∈ paraSplit c.text.data, 30 ≤ p.length) :
    (subdivideLargeSection c).length = (paraSplit c.text.data).length ∧
    2 ≤ (subdivideLargeSection c).length ∧
    (∀ sc ∈ subdivideLargeSection c,
      sc.text.length ≤ c.text.length ∧
      sc.content_hash = generateContentHash sc.text ∧
      sc.sentence_hashes = none) ∧
    (∀ i, ∀ hi : i < (subdivideLargeSection c).length,
      ((subdivideLargeSection c).get ⟨i, hi⟩).metadata.chunk_index
        = .ofStr (c.metadata.chunk_index.render ++ "." ++ toString i) ∧
      ((subdivideLargeSection c).get ⟨i, hi⟩).metadata.sub_chunk_index = some i) := by
  have hmap := subdivide_eq_map c h2 h30
  have hlen : (subdivideLargeSection c).length = (paraSplit c.text.data).length := by
    rw [hmap, List.length_map, List.enum_length]
  refine ⟨hlen, by omega, ?_, ?_⟩
  · intro sc hsc
    rw [hmap, List.mem_map] at hsc
    obtain ⟨p, hp, hmk⟩ := hsc
    have hp2 : p.2 ∈ paraSplit c.text.data := by
      have : p.2 ∈ (paraSplit c.text.data).enum.map Prod.snd :=
        List.mem_map_of_mem _ hp
      rwa [List.enum_map_snd] at this
    subst hmk
    refine ⟨?_, rfl, rfl⟩
    show (⟨p.2⟩ : String).length ≤ c.text.length
    exact (mem_paraSplit _ _ hp2).1
  · intro i hi
    have hi2 : i < ((paraSplit c.text.data).enum.map (mkSubChunk c)).length := by
      rw [← hmap]
      exact hi
    have hget : (subdivideLargeSection c).get ⟨i, hi⟩
        = mkSubChunk c ((paraSplit c.text.data).enum.get ⟨i, by
            rw [List.length_map] at hi2; exact hi2⟩) := by
      rw [List.get_eq_getElem, List.get_eq_getElem]
      simp only [hmap]
      rw [List.getElem_map]
    have henum : (paraSplit c.text.data).enum.get ⟨i, by
        rw [List.length_map] at hi2; exact hi2⟩
        = (i, (paraSplit c.text.data).get ⟨i, by
            have := hi2
            rw [List.length_map, List.enum_length] at this
            exact this⟩) := by
      rw [List.get_eq_getElem, List.getElem_enum]
      rfl
    rw [hget, henum]
    exact ⟨rfl, rfl⟩

def exChunk8 : Chunk :=
  { text := ⟨List.replicate 40 'x' ++ '\n' :: '\n' :: List.replicate 40 'y'⟩
    content_hash := "h8"
    sentence_hashes := some []
    metadata := exMeta 0 }

/-- Witness for C8 at a chunk with two 40-character paragraphs. -/
theorem claim8_witness :
    (subdivideLargeSection exChunk8).length = (paraSplit exChunk8.text.data).length ∧
    2 ≤ (subdivideLargeSection exChunk8).length ∧
    (∀ sc ∈ subdivideLargeSection exChunk8,
      sc.text.length ≤ exChunk8.text.length ∧
      sc.content_hash = generateContentHash sc.text ∧
      sc.sentence_hashes = none) ∧
    (∀ i, ∀ hi : i < (subdivideLargeSection exChunk8).length,
      ((subdivideLargeSection exChunk8).get ⟨i, hi⟩).metadata.chunk_index
        = .ofStr (exChunk8.metadata.chunk_index.render ++ "." ++ toString i) ∧
      ((subdivideLargeSection exChunk8).get ⟨i, hi⟩).metadata.sub_chunk_index
        = some i) :=
  claim8_subdivision exChunk8 (by decide) (by decide)

def c8Data : List Char := List.replicate 2500 'a'

def c8Text : String := ⟨c8Data⟩

theorem c8Data_eq : c8Data = List.replicate 2500 'a' := rfl

theorem c8Text_data : c8Text.data = c8Data := rfl

theorem c8_no_nl : '\n' ∉ c8Data := by
  rw [c8Data_eq]
  exact fun hm => absurd (List.eq_of_mem_replicate hm) (by decide)

theorem c8_strip : pyStrip c8Data = c8Data := by
  rw [c8Data_eq]
  exact pyStrip_replicate 2500 'a' (by decide)

theorem c8_hnone : ∀ l ∈ splitChar '\n' c8Text.data,
    matchSectionHeader ⟨pyStrip l⟩ = none := by
  rw [c8Text_data, splitChar_not_mem '\n' _ c8_no_nl]
  intro l hl
  rw [List.mem_singleton] at hl
  subst hl
  rw [c8_strip, c8Data_eq,
    show List.replicate 2500 'a' = 'a' :: 'a' :: List.replicate 2498 'a' from rfl]
  exact matchSectionHeader_aa _

theorem c8_detect : detectSections c8Text = [documentContentSection c8Text] :=
  detectSections_no_headers c8Text c8_hnone

theorem c8_subdivide :
    subdivideLargeSection (sectionChunk "doc.txt" (0, documentContentSection c8Text))
      = [mkSubChunk (sectionChunk "doc.txt" (0, documentContentSection c8Text))
          (0, c8Data ++ ['.'])] := by
  rw [subdivideLargeSection_eq]
  have hct : (sectionChunk "doc.txt" (0, documentContentSection c8Text)).text.data
      = c8Data := by
    rw [sectionChunk_text_data, c8Text_data, c8_strip]
  have hsub : subChunksOf (sectionChunk "doc.txt" (0, documentContentSection c8Text))
      = [mkSubChunk (sectionChunk "doc.txt" (0, documentContentSection c8Text))
          (0, c8Data ++ ['.'])] := by
    unfold subChunksOf
    rw [hct]
    rw [paraSplit_eq_of_strip c8Data c8_no_nl c8_strip
        (by
          rw [c8Data_eq, show (2500 : Nat) = 2499 + 1 from rfl, List.replicate_succ]
          exact List.cons_ne_nil _ _)]
    rw [if_pos (show ([c8Data] : List (List Char)).length ≤ 1 from by
      rw [List.length_singleton])]
    rw [show sentenceFallback c8Data = [c8Data ++ ['.']] from by
      rw [c8Data_eq]
      exact sentenceFallback_replicate 2500 (by omega)]
    rw [List.enum_singleton]
    simp only [List.filterMap_cons, List.filterMap_nil]
    dsimp only
    rw [show pyStrip (c8Data ++ ['.']) = c8Data ++ ['.'] from by
      rw [c8Data_eq]
      exact pyStrip_append_dot 2500]
    rw [if_neg (show ¬ (c8Data ++ ['.']).length < 30 from by
      rw [List.length_append, List.length_singleton, c8Data_eq, List.length_replicate]
      omega)]
  rw [hsub]
  rw [if_neg (fun h => Bool.noConfusion h)]

/-- Counterexample for C8 as stated: a 2500-character section with no
blank lines and no sentence boundaries is "subdivided" into a single
sub-chunk of 2501 characters — fewer than 2 sub-chunks, and longer than
the original section (the sentence-packing fallback appends `". "`). -/
theorem claim8_counterexample :
    ((detectSections c8Text).map (fun s => s.content.length)) = [2500] ∧
    ((createSectionChunks c8Text "doc.txt").map
      (fun c => (c.metadata.chunk_type, c.text.length,
        c.metadata.chunk_index))) =
      [("section_subdivision", 2501, .ofStr "0.0")] := by
  constructor
  · rw [c8_detect]
    simp only [List.map_cons, List.map_nil]
    rw [show (documentContentSection c8Text).content.length = 2500 from by
      show (pyStrip c8Text.data).length = 2500
      rw [c8Text_data, c8_strip, c8Data_eq, List.length_replicate]]
  · rw [createSectionChunks_single c8Text "doc.txt" c8_detect
      (by
        rw [pyStrip_idem]
        show ¬ (pyStrip c8Text.data).length < 50
        rw [c8Text_data, c8_strip, c8Data_eq, List.length_replicate]
        omega)
      (by
        show (pyStrip c8Text.data).length > 2000
        rw [c8Text_data, c8_strip, c8Data_eq, List.length_replicate]
        omega),
      c8_subdivide]
    simp only [List.map_cons, List.map_nil]
    rw [show (mkSubChunk (sectionChunk "doc.txt" (0, documentContentSection c8Text))
        (0, c8Data ++ ['.'])).text.length = 2501 from by
      show (c8Data ++ ['.']).length = 2501
      rw [List.length_append, List.length_singleton, c8Data_eq, List.length_replicate]]
    rfl

/-! ## Claim C10: sub-chunks carry no sentence hashes -/

/-- Claim C10 (amended): every sub-chunk produced by
`_subdivide_large_section` has no `sentence_hashes` key; but when the
subdivision produces no sub-chunk (every candidate paragraph under 30
characters) the original chunk — with its `sentence_hashes` — is returned
unchanged, so sentences of a section longer than 2000 characters can still
enter the sentence-level maps (see the counterexample). -/
theorem claim10_subchunks_no_sentence_hashes (c : Chunk) :
    ∀ sc ∈ subdivideLargeSection c, sc.sentence_hashes = none ∨ sc = c := by
  intro sc hsc
  unfold subdivideLargeSection at hsc
  dsimp only at hsc
  split at hsc
  all_goals
    split at hsc
  all_goals
    first
    | (rw [List.mem_singleton] at hsc
       exact Or.inr hsc)
    | (rw [List.mem_filterMap] at hsc
       obtain ⟨p, _, hf⟩ := hsc
       split at hf
       · cases hf
       · injection hf with hf
         subst hf
         exact Or.inl rfl)

/-- Witness for C10: the first sub-chunk of the concrete subdivision of
`exChunk8` carries no `sentence_hashes`. -/
theorem claim10_witness :
    ((subdivideLargeSection exChunk8).get ⟨0, by decide⟩).sentence_hashes = none ∨
    (subdivideLargeSection exChunk8).get ⟨0, by decide⟩ = exChunk8 :=
  claim10_subchunks_no_sentence_hashes exChunk8 _ (List.get_mem _ _ _)

def c10Piece : List Char := List.replicate 8 'a'

/-- 261 eight-character paragraphs separated by blank lines: 2608
characters in total, each paragraph under 30 characters. -/
def c10Data : Nat → List Char
  | 0 => c10Piece
  | n + 1 => c10Piece ++ '\n' :: '\n' :: c10Data n

def c10Text : String := ⟨c10Data 260⟩

theorem c10Text_data : c10Text.data = c10Data 260 := rfl

theorem c10Piece_no_nl : '\n' ∉ c10Piece := by decide

theorem c10Data_length (n : Nat) : (c10Data n).length = 8 + 10 * n := by
  induction n with
  | zero => rfl
  | succ k ih =>
    show (c10Piece ++ '\n' :: '\n' :: c10Data k).length = 8 + 10 * (k + 1)
    rw [List.length_append, List.length_cons, List.length_cons, ih,
      show c10Piece.length = 8 from rfl]
    omega

theorem c10Data_getLast? (n : Nat) : (c10Data n).getLast? = some 'a' := by
  induction n with
  | zero => decide
  | succ k ih =>
    show (c10Piece ++ '\n' :: '\n' :: c10Data k).getLast? = some 'a'
    have hne : c10Data k ≠ [] := by
      intro he
      have hl := c10Data_length k
      rw [he, List.length_nil] at hl
      omega
    rw [List.getLast?_append_of_ne_nil _ (List.cons_ne_nil _ _),
      getLast?_cons_of_ne_nil _ _ (List.cons_ne_nil _ _),
      getLast?_cons_of_ne_nil _ _ hne, ih]

theorem c10Data_headNonWs (n : Nat) : headNonWs (c10Data n) := by
  cases n with
  | zero =>
    show headNonWs c10Piece
    rw [show c10Piece = 'a' :: List.replicate 7 'a' from rfl]
    exact headNonWs_cons _ _ (by decide)
  | succ k =>
    show headNonWs (c10Piece ++ '\n' :: '\n' :: c10Data k)
    rw [show c10Piece = 'a' :: List.replicate 7 'a' from rfl, List.cons_append]
    exact headNonWs_cons _ _ (by decide)

theorem c10_strip : pyStrip (c10Data 260) = c10Data 260 :=
  pyStrip_eq_of_ends _ (c10Data_headNonWs 260)
    (lastNonWs_last _ 'a' (c10Data_getLast? 260) (by decide))

theorem c10Data_no_punct (n : Nat) : ∀ c ∈ c10Data n, isSentPunct c = false := by
  induction n with
  | zero => decide
  | succ k ih =>
    intro c hc
    rw [show c10Data (k + 1) = c10Piece ++ '\n' :: '\n' :: c10Data k from rfl] at hc
    rcases List.mem_append.mp hc with h1 | h2
    · exact (by decide : ∀ c ∈ c10Piece, isSentPunct c = false) c h1
    rcases List.mem_cons.mp h2 with rfl | h3
    · rfl
    rcases List.mem_cons.mp h3 with rfl | h4
    · rfl
    · exact ih c h4

theorem splitNN_c10Data (n : Nat) :
    splitNN (c10Data n) = c10Piece :: List.replicate n c10Piece := by
  induction n with
  | zero =>
    rw [show c10Data 0 = c10Piece from rfl]
    exact splitNN_no_nl c10Piece c10Piece_no_nl
  | succ k ih =>
    rw [show c10Data (k + 1) = c10Piece ++ '\n' :: '\n' :: c10Data k from rfl,
      splitNN_append (c10Data k) c10Piece c10Piece_no_nl, ih, List.replicate_succ]

theorem c10_lines (n : Nat) :
    ∀ l ∈ splitChar '\n' (c10Data n), l = c10Piece ∨ l = [] := by
  induction n with
  | zero =>
    intro l hl
    rw [show c10Data 0 = c10Piece from rfl,
      splitChar_not_mem '\n' c10Piece c10Piece_no_nl, List.mem_singleton] at hl
    exact Or.inl hl
  | succ k ih =>
    intro l hl
    rw [show c10Data (k + 1) = c10Piece ++ '\n' :: '\n' :: c10Data k from rfl,
      splitChar_append_sep '\n' ('\n' :: c10Data k) c10Piece c10Piece_no_nl,
      splitChar_cons_sep] at hl
    rcases List.mem_cons.mp hl with rfl | hl2
    · exact Or.inl rfl
    rcases List.mem_cons.mp hl2 with rfl | hl3
    · exact Or.inr rfl
    · exact ih l hl3

theorem c10_hnone : ∀ l ∈ splitChar '\n' c10Text.data,
    matchSectionHeader ⟨pyStrip l⟩ = none := by
  intro l hl
  rcases c10_lines 260 l hl with rfl | rfl
  · decide
  · decide

theorem c10_detect : detectSections c10Text = [documentContentSection c10Text] :=
  detectSections_no_headers c10Text c10_hnone

theorem c10_subdivide :
    subdivideLargeSection (sectionChunk "doc.txt" (0, documentContentSection c10Text))
      = [sectionChunk "doc.txt" (0, documentContentSection c10Text)] := by
  rw [subdivideLargeSection_eq]
  have hct : (sectionChunk "doc.txt" (0, documentContentSection c10Text)).text.data
      = c10Data 260 := by
    rw [sectionChunk_text_data, c10Text_data]
    exact c10_strip
  have hsub : subChunksOf (sectionChunk "doc.txt" (0, documentContentSection c10Text))
      = [] := by
    unfold subChunksOf
    rw [hct]
    have hpara : paraSplit (c10Data 260) = List.replicate 261 c10Piece := by
      unfold paraSplit
      rw [splitNN_c10Data 260, ← List.replicate_succ,
        show (260 : Nat) + 1 = 261 from rfl]
      refine (filterMap_total _ _ id ?_).trans (List.map_id _)
      intro x hx
      rw [List.eq_of_mem_replicate hx]
      decide
    rw [hpara]
    rw [if_neg (by rw [List.length_replicate]; omega)]
    apply filterMap_eq_nil_of_none
    intro x hx
    have hx2 : x.2 = c10Piece := by
      have hm : x.2 ∈ (List.replicate 261 c10Piece).enum.map Prod.snd :=
        List.mem_map_of_mem _ hx
      rw [List.enum_map_snd] at hm
      exact List.eq_of_mem_replicate hm
    show (if (pyStrip x.2).length < 30 then none
      else some (mkSubChunk (sectionChunk "doc.txt" (0, documentContentSection c10Text)) x))
      = none
    rw [hx2, if_pos (by decide)]
  rw [hsub, if_pos (show (([] : List Chunk)).isEmpty = true from rfl)]

theorem c10_gen : generateSentenceHashes (documentContentSection c10Text).content
    = [{ sentence_index := 0
         sentence_text := ⟨c10Data 260⟩
         sentence_hash := sha256hex ⟨collapseWs (pyStrip ((c10Data 260).map pyLowerChar))⟩
         word_count := pyWordCount (c10Data 260) }] := by
  unfold generateSentenceHashes
  rw [documentContentSection_data, c10Text_data, c10_strip]
  rw [splitPunct_no_punct _ (c10Data_no_punct 260), List.enum_singleton]
  simp only [List.filterMap_cons, List.filterMap_nil]
  rw [c10_strip]
  rw [if_pos (by rw [c10Data_length]; omega)]

theorem sha256Round_length (st : List Nat) (w k : Nat) :
    (sha256Round st w k).length = 8 := rfl

theorem foldl_sha256Round_length (ts : List Nat) :
    ∀ (st : List Nat) (w : List Nat), st.length = 8 →
      (ts.foldl (fun st t => sha256Round st (w.getD t 0) (sha256K.getD t 0)) st).length
        = 8 := by
  induction ts with
  | nil => intro st w h; exact h
  | cons t ts ih =>
    intro st w h
    rw [List.foldl_cons]
    exact ih _ w rfl

theorem sha256Compress_length (h block : List Nat) (hh : h.length = 8) :
    (sha256Compress h block).length = 8 := by
  unfold sha256Compress
  dsimp only
  rw [List.length_zipWith, hh,
    foldl_sha256Round_length (List.range 64) h (extendSchedule block 48) hh]
  rfl

theorem sha256Words_length (msg : List Nat) : (sha256Words msg).length = 8 := by
  unfold sha256Words
  have hgen : ∀ (bs : List (List Nat)) (h : List Nat), h.length = 8 →
      (bs.foldl sha256Compress h).length = 8 := by
    intro bs
    induction bs with
    | nil => intro h hh; exact hh
    | cons b bs ih =>
      intro h hh
      rw [List.foldl_cons]
      exact ih _ (sha256Compress_length _ _ hh)
  exact hgen _ _ rfl

/-- The digest is never the empty string, so no chunk or sentence is
skipped by the truthiness tests of `add_document_chunks`. -/
theorem sha256hex_ne_empty (s : String) : ¬ sha256hex s = "" := by
  intro h
  have hd : ((sha256Words (utf8Bytes s.data)).foldr
      (fun w acc => wordHex w ++ acc) []) = ([] : List Char) :=
    congrArg String.data h
  have hlen := sha256Words_length (utf8Bytes s.data)
  rcases hws : sha256Words (utf8Bytes s.data) with _ | ⟨w, rest⟩
  · rw [hws, List.length_nil] at hlen
    exact absurd hlen (by decide)
  · rw [hws, List.foldr_cons] at hd
    unfold wordHex at hd
    rw [List.cons_append] at hd
    exact List.noConfusion hd

/-- Counterexample for C10 as stated: a 2608-character section whose
paragraphs are all under 30 characters fails to subdivide; the original
chunk keeps one sentence hash, and `add_document_chunks` then records a
sentence of this over-2000-character section in
`document_to_sentence_hashes`. -/
theorem claim10_counterexample :
    ((createSectionChunks c10Text "doc.txt").map
      (fun c => (c.metadata.char_count, (c.sentence_hashes.getD []).length)))
      = [(2608, 1)] ∧
    ((lookupA (addDocumentChunks emptyState "docC"
        (createSectionChunks c10Text "doc.txt")).document_to_sentence_hashes
      "docC").getD []).length = 1 := by
  have hcsc : createSectionChunks c10Text "doc.txt"
      = [sectionChunk "doc.txt" (0, documentContentSection c10Text)] := by
    rw [createSectionChunks_single c10Text "doc.txt" c10_detect
        (by
          rw [pyStrip_idem]
          show ¬ (pyStrip (c10Data 260)).length < 50
          rw [c10_strip, c10Data_length]
          omega)
        (by
          show (pyStrip (c10Data 260)).length > 2000
          rw [c10_strip, c10Data_length]
          omega),
      c10_subdivide]
  constructor
  · rw [hcsc]
    simp only [List.map_cons, List.map_nil]
    rw [sectionChunk_char_count, c10Text_data, c10_strip, c10Data_length,
      sectionChunk_sentences, Option.getD_some, c10_gen]
    rfl
  · rw [hcsc, addDocumentChunks_d2sh, List.foldl_cons, List.foldl_nil]
    unfold addChunkStep
    rw [if_neg (show ¬ (sectionChunk "doc.txt"
        (0, documentContentSection c10Text)).content_hash = "" from
      sha256hex_ne_empty _)]
    unfold addSentences
    rw [sectionChunk_sentences, Option.getD_some, c10_gen]
    rw [List.foldl_cons, List.foldl_nil]
    dsimp only
    rw [if_neg (show ¬ sha256hex ⟨collapseWs (pyStrip ((c10Data 260).map pyLowerChar))⟩
        = "" from sha256hex_ne_empty _)]
    rfl

end SOPCore
